import Mathlib

/-!
# Needle codec, file-id codec and directory mapper of the volume store

A shallow embedding of `lib/storage/needle.go` and
`lib/directory/volume_mapping.go`.

Conventions of the embedding:

* a Go `[]byte` and a Go `string` are both `List Nat`, one entry per byte;
* `uint32` / `uint64` values are naturals, reduced `% 2^32` / `% 2^64`
  wherever the Go arithmetic can wrap;
* `int32` values are integers, with the two conversions `uint32(·)` and
  `int32(·)` spelled out;
* a run-time panic (slice bounds, index out of range) is an explicit result.
-/

namespace Weed

/-! ## Byte codec (`lib/util`) -/

/-- Modelled from the spec: `util.Uint32toBytes` is not part of the sources at
hand; the spec fixes all multi-byte integers as big-endian.  The four bytes
written for the `uint32` value `v`, most significant first. -/
def Uint32toBytes (v : Nat) : List Nat :=
  [v / 2 ^ 24 % 256, v / 2 ^ 16 % 256, v / 2 ^ 8 % 256, v % 256]

/-- Modelled from the spec: `util.Uint64toBytes` is not part of the sources at
hand; the spec fixes all multi-byte integers as big-endian.  The eight bytes
written for the `uint64` value `v`, most significant first. -/
def Uint64toBytes (v : Nat) : List Nat :=
  [v / 2 ^ 56 % 256, v / 2 ^ 48 % 256, v / 2 ^ 40 % 256, v / 2 ^ 32 % 256,
   v / 2 ^ 24 % 256, v / 2 ^ 16 % 256, v / 2 ^ 8 % 256, v % 256]

/-- Modelled from the spec: `util.BytesToUint32` is not part of the sources at
hand; the spec reads `BE_u32`.  Big-endian value of a byte slice, accumulated
in a `uint32`. -/
def BytesToUint32 (b : List Nat) : Nat :=
  b.foldl (fun v x => (v * 256 + x) % 2 ^ 32) 0

/-- Modelled from the spec: `util.BytesToUint64` is not part of the sources at
hand; the spec reads `BE_u64`.  Big-endian value of a byte slice, accumulated
in a `uint64`. -/
def BytesToUint64 (b : List Nat) : Nat :=
  b.foldl (fun v x => (v * 256 + x) % 2 ^ 64) 0

/-- Go conversion `uint32(x)` of an `int32`. -/
def uint32OfInt32 (c : Int) : Nat := (c % 2 ^ 32).toNat

/-- Go conversion `int32(x)` of a `uint32`. -/
def int32OfUint32 (u : Nat) : Int :=
  if u % 2 ^ 32 < 2 ^ 31 then ((u % 2 ^ 32 : Nat) : Int) else ((u % 2 ^ 32 : Nat) : Int) - 2 ^ 32

/-- Go slice expression `b[lo:hi]` on a slice whose capacity is its length;
`none` is the slice-bounds panic. -/
def slice (b : List Nat) (lo hi : Nat) : Option (List Nat) :=
  if lo ≤ hi ∧ hi ≤ b.length then some ((b.drop lo).take (hi - lo)) else none

/-- Overwrite `buf` from offset `off` with the bytes `bs` (a helper writing into
a sub-slice of a buffer). -/
def writeAt (buf : List Nat) (off : Nat) (bs : List Nat) : List Nat :=
  buf.take off ++ bs ++ buf.drop (off + bs.length)

/-! ## Needle -/

/-- The `Needle` struct. -/
structure Needle where
  Cookie : Nat
  Key : Nat
  Size : Nat
  Data : List Nat
  Checksum : Int
  Padding : List Nat
  deriving DecidableEq, Repr

/-- Result of `Needle.Append`: the needle (its `Size` is assigned), the
writer's content and the returned value. -/
structure AppendResult where
  needle : Needle
  written : List Nat
  ret : Nat
  deriving DecidableEq, Repr

/-- The padding count `rest := 8 - ((n.Size + 16 + 4) % 8)` in `uint32`
arithmetic. -/
def restOf (size : Nat) : Nat := 8 - ((size + 16 + 4) % 2 ^ 32 % 8)

/-- `func (n *Needle) Append(w io.Writer) uint32`; `w` is the content the
writer already holds. -/
def Needle.Append (n : Needle) (w : List Nat) : AppendResult :=
  let header : List Nat := List.replicate 16 0
  let header := writeAt header 0 (Uint32toBytes n.Cookie)
  let header := writeAt header 4 (Uint64toBytes n.Key)
  let size := n.Data.length % 2 ^ 32
  let header := writeAt header 12 (Uint32toBytes size)
  let w := w ++ header
  let w := w ++ n.Data
  let rest := restOf size
  let header := writeAt header 0 (Uint32toBytes (uint32OfInt32 n.Checksum))
  let w := w ++ header.take (rest + 4)
  { needle := { n with Size := size }, written := w, ret := size }

/-- Result of `Needle.Read`: the needle, the byte count and whether the error
is non-nil, and what is left in the reader. -/
structure ReadResult where
  needle : Needle
  count : Nat
  err : Bool
  remaining : List Nat
  deriving DecidableEq, Repr

/-- `r.Read(bytes)` on a reader holding `r`: fills a buffer of `len` bytes
with what is available; returns the buffer, the count, the error flag (end of
input with nothing read) and the rest of the reader. -/
def readInto (r : List Nat) (len : Nat) : List Nat × Nat × Bool × List Nat :=
  let got := r.take len
  (got ++ List.replicate (len - got.length) 0, got.length,
    decide (0 < len ∧ got.length = 0), r.drop len)

/-- `func (n *Needle) Read(r io.Reader, size uint32) (int, error)`;
`none` is a slice-bounds panic. -/
def Needle.Read (n : Needle) (r : List Nat) (size : Nat) : Option ReadResult := do
  let (bytes, ret, e, r) := readInto r ((size + 16 + 4) % 2 ^ 32)
  let cookie ← slice bytes 0 4
  let key ← slice bytes 4 12
  let sz ← slice bytes 12 16
  let data ← slice bytes 16 ((16 + size) % 2 ^ 32)
  let cks ← slice bytes ((16 + size) % 2 ^ 32) ((16 + size + 4) % 2 ^ 32)
  pure { needle := { n with Cookie := BytesToUint32 cookie, Key := BytesToUint64 key,
                            Size := BytesToUint32 sz, Data := data,
                            Checksum := int32OfUint32 (BytesToUint32 cks) },
         count := ret, err := e, remaining := r }

/-! ## File-id codec -/

/-- Value of one hexadecimal digit byte (`encoding/hex`), `none` for any other
byte. -/
def fromHexChar (c : Nat) : Option Nat :=
  if 48 ≤ c ∧ c ≤ 57 then some (c - 48)
  else if 97 ≤ c ∧ c ≤ 102 then some (c - 97 + 10)
  else if 65 ≤ c ∧ c ≤ 70 then some (c - 65 + 10)
  else none

/-- Go `hex.DecodeString`: `none` when the error is non-nil (a byte that is no
hex digit, or an odd length); the partial bytes returned with an error are
only logged by the caller and are not kept. -/
def hexDecode : List Nat → Option (List Nat)
  | [] => some []
  | [_] => none
  | p :: q :: rest =>
    match fromHexChar p, fromHexChar q, hexDecode rest with
    | some a, some b, some bs => some ((a * 16 + b) :: bs)
    | _, _, _ => none

/-- Position of the last byte equal to `c`, if any. -/
def lastIndex? : List Nat → Nat → Option Nat
  | [], _ => none
  | x :: xs, c =>
    match lastIndex? xs c with
    | some i => some (i + 1)
    | none => if x = c then some 0 else none

/-- Go `strings.LastIndex(s, sep)` for a one-byte separator: `-1` when absent. -/
def LastIndex (s : List Nat) (c : Nat) : Int :=
  match lastIndex? s c with
  | some i => (i : Int)
  | none => -1

/-- Go `strconv.ParseUint(s, 10, 64)`: `none` when the error is non-nil (empty
input, a byte that is no decimal digit, or a value above `2^64 - 1`). -/
def ParseUint (s : List Nat) : Option Nat :=
  if s = [] then none
  else s.foldlM (fun n c =>
    if 48 ≤ c ∧ c ≤ 57 then
      (if n * 10 + (c - 48) < 2 ^ 64 then some (n * 10 + (c - 48)) else none)
    else none) 0

/-- `func ParseKeyHash(key_hash_string string) (uint64, uint32)`. -/
def ParseKeyHash (key_hash_string : List Nat) : Nat × Nat :=
  match hexDecode key_hash_string with
  | none => (0, 0)
  | some key_hash_bytes =>
    let key_hash_len := key_hash_bytes.length
    if key_hash_len ≤ 4 then (0, 0)
    else
      (BytesToUint64 (key_hash_bytes.take (key_hash_len - 4)),
       BytesToUint32 (key_hash_bytes.drop (key_hash_len - 4)))

/-- `func (n *Needle) ParsePath(fid string)`; byte 95 is `_`. -/
def Needle.ParsePath (n : Needle) (fid : List Nat) : Needle :=
  let length := fid.length
  if length ≤ 8 then n
  else
    let deltaIndex := LastIndex fid 95
    let fd : List Nat × List Nat :=
      if deltaIndex > 0 then (fid.take deltaIndex.toNat, fid.drop (deltaIndex.toNat + 1))
      else (fid, [])
    let kc := ParseKeyHash fd.1
    let n := { n with Key := kc.1, Cookie := kc.2 }
    if fd.2 ≠ [] then
      match ParseUint fd.2 with
      | some d => { n with Key := (n.Key + d) % 2 ^ 64 }
      | none => n
    else n

/-- Bytes of a string literal (UTF-8). -/
def bytesOf (s : String) : List Nat :=
  s.toList.flatMap (fun c => (String.utf8EncodeChar c).map UInt8.toNat)

/-- Lower-case hexadecimal digit byte of a value below 16. -/
def hexDigit (d : Nat) : Nat := if d < 10 then 48 + d else 87 + d

/-- Lower-case hexadecimal text of a byte sequence (two digits per byte). -/
def hexEncode : List Nat → List Nat
  | [] => []
  | b :: bs => hexDigit (b / 16) :: hexDigit (b % 16) :: hexEncode bs

/-- The 24-character hash part of a file id: hex of the 8 big-endian key
bytes followed by the 4 big-endian cookie bytes. -/
def fidHash (key cookie : Nat) : List Nat :=
  hexEncode (Uint64toBytes key ++ Uint32toBytes cookie)

/-- Decimal digits of a natural number, most significant first. -/
def decimal (d : Nat) : List Nat :=
  if d < 10 then [48 + d] else decimal (d / 10) ++ [48 + d % 10]
decreasing_by omega

/-! ## Directory mapper -/

/-- The constant `FileIdSaveInterval`. -/
def FileIdSaveInterval : Nat := 10000

/-- The `MachineInfo` struct. -/
structure MachineInfo where
  Url : List Nat
  PublicUrl : List Nat
  deriving DecidableEq, Repr

/-- Modelled from the spec: `storage.VolumeInfo` is declared outside the
sources at hand; the spec gives it as `(id: u32, size: u64)`, so the
conversion `uint64(v.Size)` is the identity. -/
structure VolumeInfo where
  Id : Nat
  Size : Nat
  deriving DecidableEq, Repr

/-- The `Machine` struct. -/
structure Machine where
  Server : MachineInfo
  Volumes : List VolumeInfo
  deriving DecidableEq, Repr

/-- The `Mapper` struct (the two mutexes are left out).  `vid2machineId` is
the Go map as an association list, newest binding first; `seqFile` is the
integer held by the file `dir/fileName.seq`, `none` when the file is absent. -/
structure Mapper where
  dir : List Nat
  fileName : List Nat
  Machines : List Machine
  vid2machineId : List (Nat × Int)
  Writers : List Nat
  FileIdSequence : Nat
  fileIdCounter : Nat
  volumeSizeLimit : Nat
  seqFile : Option Nat
  deriving DecidableEq, Repr

/-- Map read `m[k]` of a `map[uint32]int`: the zero value when `k` is absent. -/
def mapGet (mp : List (Nat × Int)) (k : Nat) : Int :=
  match mp.lookup k with
  | some v => v
  | none => 0

/-- Map write `m[k] = v`. -/
def mapSet (mp : List (Nat × Int)) (k : Nat) (v : Int) : List (Nat × Int) :=
  (k, v) :: mp

/-- `uint64` subtraction `a - b`, wrapping. -/
def sub64 (a b : Nat) : Nat := (a + (2 ^ 64 - b % 2 ^ 64)) % 2 ^ 64

/-- Go conversion `int(x)` of a `uint64` (64-bit `int`). -/
def intOfUint64 (u : Nat) : Int :=
  if u % 2 ^ 64 < 2 ^ 63 then ((u % 2 ^ 64 : Nat) : Int) else ((u % 2 ^ 64 : Nat) : Int) - 2 ^ 64

/-- `func NewMapper(dirname string, filename string, volumeSizeLimit uint64)`;
`seqFile` is what the `.seq` file holds when the mapper is built. -/
def NewMapper (dirname filename : List Nat) (volumeSizeLimit : Nat) (seqFile : Option Nat) :
    Mapper :=
  let m : Mapper :=
    { dir := dirname, fileName := filename, Machines := [], vid2machineId := [],
      Writers := [], FileIdSequence := 0, fileIdCounter := 0,
      volumeSizeLimit := volumeSizeLimit, seqFile := seqFile }
  match seqFile with
  | none => { m with FileIdSequence := FileIdSaveInterval }
  | some stored => { m with FileIdSequence := (stored + FileIdSaveInterval) % 2 ^ 64 }

/-- `func (m *Mapper) saveSequence()`. -/
def Mapper.saveSequence (m : Mapper) : Mapper :=
  { m with seqFile := some m.FileIdSequence }

/-- The body of `NextFileId` after the count is known. -/
def Mapper.nextFileIdCount (m : Mapper) (count : Nat) : Mapper × Nat × Int :=
  let m :=
    if m.fileIdCounter < count then
      Mapper.saveSequence
        { m with fileIdCounter := FileIdSaveInterval,
                 FileIdSequence := (m.FileIdSequence + FileIdSaveInterval) % 2 ^ 64 }
    else m
  let m := { m with fileIdCounter := sub64 m.fileIdCounter count }
  (m, sub64 m.FileIdSequence m.fileIdCounter, intOfUint64 count)

/-- `func (m *Mapper) NextFileId(c string) (uint64, int)`: the new state, the
start key and the granted count. -/
def Mapper.NextFileId (m : Mapper) (c : List Nat) : Mapper × Nat × Int :=
  match ParseUint c with
  | some count => m.nextFileIdCount count
  | none => if c.length > 0 then (m, 0, 0) else m.nextFileIdCount 1

/-- Result of `Mapper.Get`: the machine, the `invalid volume id` error, or the
index-out-of-range panic. -/
inductive GetResult where
  | ok (machine : Machine)
  | invalidVolumeId (vid : Nat)
  | indexOutOfRange
  deriving DecidableEq, Repr

/-- `func (m *Mapper) Get(vid uint32) (*Machine, error)`. -/
def Mapper.Get (m : Mapper) (vid : Nat) : GetResult :=
  let machineId := mapGet m.vid2machineId vid
  if machineId ≤ 0 then GetResult.invalidVolumeId vid
  else
    match m.Machines[(machineId - 1).toNat]? with
    | some machine => GetResult.ok machine
    | none => GetResult.indexOutOfRange

/-- The search loop of `Add`: index of the first machine whose url equals
`url`, if there is one. -/
def firstIndex : List Machine → List Nat → Option Nat
  | [], _ => none
  | entry :: rest, url =>
    if url = entry.Server.Url then some 0 else (firstIndex rest url).map (· + 1)

/-- The value of `foundExistingMachineId` after the search loop of `Add`: the
index found, or `-1`. -/
def foundExistingMachineId (machines : List Machine) (url : List Nat) : Int :=
  match firstIndex machines url with
  | some index => (index : Int)
  | none => -1

/-- The last loop of `Add`: the ids of all advertised volumes below the size
limit, in slot order. -/
def rebuildWriters (machines : List Machine) (volumeSizeLimit : Nat) : List Nat :=
  machines.foldl (fun writers machine_entry =>
    machine_entry.Volumes.foldl (fun writers v =>
      if v.Size < volumeSizeLimit then writers ++ [v.Id] else writers) writers) []

/-- `func (m *Mapper) Add(machine Machine)`. -/
def Mapper.Add (m : Mapper) (machine : Machine) : Mapper :=
  let machineId := foundExistingMachineId m.Machines machine.Server.Url
  let mm : Int × List Machine :=
    if machineId < 0 then ((m.Machines.length : Int), m.Machines ++ [machine])
    else (machineId, m.Machines.set machineId.toNat machine)
  let vid2machineId :=
    machine.Volumes.foldl (fun mp v => mapSet mp v.Id (mm.1 + 1)) m.vid2machineId
  { m with Machines := mm.2, vid2machineId := vid2machineId,
           Writers := rebuildWriters mm.2 m.volumeSizeLimit }

/-- A run of `Add` calls, in order. -/
def Mapper.addAll (m : Mapper) (machines : List Machine) : Mapper :=
  machines.foldl Mapper.Add m

/-- A run of `NextFileId` calls, in order: the final state and the
`(start_key, granted_count)` pair of every call. -/
def Mapper.nextFileIds (m : Mapper) : List (List Nat) → Mapper × List (Nat × Int)
  | [] => (m, [])
  | c :: cs =>
    let r := m.NextFileId c
    let rs := Mapper.nextFileIds r.1 cs
    (rs.1, r.2 :: rs.2)

/-! ## Scanning a volume file (`ReadNeedle`) -/

/-- An open `*os.File`: its bytes and the cursor. -/
structure File where
  content : List Nat
  pos : Nat
  deriving DecidableEq, Repr

/-- `r.Read(bytes)` on a file with a buffer of `len` zero bytes: the filled
buffer, the count, whether the error is non-nil (end of file, nothing read),
and the file with its cursor moved by the count. -/
def File.Read (r : File) (len : Nat) : List Nat × Nat × Bool × File :=
  let got := (r.content.drop r.pos).take len
  (got ++ List.replicate (len - got.length) 0, got.length,
    decide (0 < len ∧ got.length = 0), { r with pos := r.pos + got.length })

/-- `r.Seek(offset, 1)` with a non-negative offset: moves the cursor forward. -/
def File.SeekCur (r : File) (offset : Nat) : File :=
  { r with pos := r.pos + offset }

/-- The needle `new(Needle)` allocates. -/
def Needle.zero : Needle :=
  { Cookie := 0, Key := 0, Size := 0, Data := [], Checksum := 0, Padding := [] }

/-- `func ReadNeedle(r *os.File) (*Needle, uint32)`: the needle (`none` is
`nil`), the returned length and the file afterwards. -/
def ReadNeedle (r : File) : Option Needle × Nat × File :=
  let n := Needle.zero
  let rd := r.Read 16
  let bytes := rd.1
  let count := rd.2.1
  let e := rd.2.2.1
  let r := rd.2.2.2
  if count ≤ 0 ∨ e = true then (none, 0, r)
  else
    let n := { n with Cookie := BytesToUint32 ((bytes.drop 0).take 4) }
    let n := { n with Key := BytesToUint64 ((bytes.drop 4).take 8) }
    let n := { n with Size := BytesToUint32 ((bytes.drop 12).take 4) }
    let rest := restOf n.Size
    let r := r.SeekCur ((n.Size + 4 + rest) % 2 ^ 32)
    (some n, (16 + n.Size + 4 + rest) % 2 ^ 32, r)

/-! ## Picking a volume for a write (`PickForWrite`) -/

/-- Modelled from the spec: `NewFileId(...).String()` lives outside the sources
at hand; the spec gives `Format(vid, key, cookie)` as the decimal volume id, a
comma, and the hex text of the 8 big-endian key bytes followed by the 4
big-endian cookie bytes. -/
def FileIdString (vid key cookie : Nat) : List Nat :=
  decimal vid ++ bytesOf "," ++ fidHash key cookie

/-- Go `rand.Intn(n)` drawing the raw value `raw`: `none` is the panic for
`n <= 0`, otherwise a value in `[0, n)`. -/
def Intn (raw n : Nat) : Option Nat :=
  if n = 0 then none else some (raw % n)

/-- The three errors `PickForWrite` builds. -/
inductive PickError where
  | noMoreWritableVolumes
  | strangeCount (c : List Nat)
  | onNoMachine (vid : Nat)
  deriving DecidableEq, Repr

/-- Outcome of `PickForWrite`: a run-time panic, or the mapper afterwards with
the four returned values (`err = none` is a nil error). -/
inductive PickResult where
  | panic
  | ret (m : Mapper) (fid : List Nat) (count : Int) (server : MachineInfo)
      (err : Option PickError)
  deriving DecidableEq, Repr

/-- The expression `m.Machines[rand.Intn(len(m.Machines))].Server` of the
error returns, drawing `raw`. -/
def Mapper.randomServer (m : Mapper) (raw : Nat) : Option MachineInfo :=
  match Intn raw m.Machines.length with
  | none => none
  | some i =>
    match m.Machines[i]? with
    | some machine => some machine.Server
    | none => none

/-- `func (m *Mapper) PickForWrite(c string) (string, int, MachineInfo, error)`;
`raw1` and `raw2` are the first and second random draws of the call. -/
def Mapper.PickForWrite (m : Mapper) (c : List Nat) (raw1 raw2 : Nat) : PickResult :=
  let len_writers := m.Writers.length
  if len_writers ≤ 0 then
    match m.randomServer raw1 with
    | some server => PickResult.ret m [] 0 server (some PickError.noMoreWritableVolumes)
    | none => PickResult.panic
  else
    match Intn raw1 len_writers with
    | none => PickResult.panic
    | some wi =>
      match m.Writers[wi]? with
      | none => PickResult.panic
      | some vid =>
        let machine_id := mapGet m.vid2machineId vid
        if machine_id > 0 then
          match m.Machines[(machine_id - 1).toNat]? with
          | none => PickResult.panic
          | some machine =>
            let r := m.NextFileId c
            if r.2.2 = 0 then
              match r.1.randomServer raw2 with
              | some server => PickResult.ret r.1 [] 0 server (some (PickError.strangeCount c))
              | none => PickResult.panic
            else
              PickResult.ret r.1 (FileIdString vid r.2.1 (raw2 % 2 ^ 32)) r.2.2
                machine.Server none
        else
          match m.randomServer raw2 with
          | some server => PickResult.ret m [] 0 server (some (PickError.onNoMachine vid))
          | none => PickResult.panic

/-! ## The read handler of the volume server (`GetHandler`) -/

/-- Go `strings.Contains`. -/
def Contains (s sub : List Nat) : Bool :=
  s.tails.any (fun t => sub.isPrefixOf t)

/-- The value `strconv.ParseUint(s, 10, 64)` returns next to its error: the
parsed number, `2^64 - 1` on a range error, `0` on a syntax error. -/
def ParseUintValue (s : List Nat) : Nat :=
  match ParseUint s with
  | some v => v
  | none =>
    if s ≠ [] ∧ s.all (fun c => decide (48 ≤ c ∧ c ≤ 57)) = true then 2 ^ 64 - 1 else 0

/-- `func parseURLPath(path string) (vid, fid, ext string)`; `none` is a
slice-bounds panic.  Bytes 47, 44 and 46 are `/`, `,` and `.`. -/
def parseURLPath (path : List Nat) : Option (List Nat × List Nat × List Nat) :=
  let sepIndex := LastIndex path 47
  if sepIndex < 0 then none
  else
    let commaIndex := LastIndex (path.drop sepIndex.toNat) 44
    if commaIndex ≤ 0 then some ([], [], [])
    else
      let dotIndex := LastIndex (path.drop sepIndex.toNat) 46
      match slice path (sepIndex.toNat + 1) commaIndex.toNat,
            slice path (commaIndex.toNat + 1) path.length with
      | some vid, some fid =>
        if dotIndex > 0 then
          match slice path (commaIndex.toNat + 1) dotIndex.toNat,
                slice path dotIndex.toNat path.length with
          | some fid, some ext => some (vid, fid, ext)
          | _, _ => none
        else some (vid, fid, [])
      | _, _ => none

/-- What the handler needs of the request: the url path and the
`Accept-Encoding` header. -/
structure Request where
  Path : List Nat
  AcceptEncoding : List Nat
  deriving DecidableEq, Repr

/-- The response writer: the headers set and the body bytes written. -/
structure Response where
  headers : List (List Nat × List Nat)
  body : List Nat
  deriving DecidableEq, Repr

/-- The collaborators of `GetHandler` that live outside the sources at hand:
`store.Read` (the needle after the read, the count, whether the error is
non-nil), `mime.TypeByExtension`, `storage.IsCompressable` and
`storage.UnGzipData`. -/
structure GetDeps where
  storeRead : Nat → Needle → Needle × Int × Bool
  typeByExtension : List Nat → List Nat
  isCompressable : List Nat → List Nat → Bool
  unGzipData : List Nat → List Nat

/-- `func GetHandler(w http.ResponseWriter, r *http.Request)`: the response
writer afterwards; `none` is a panic inside `parseURLPath`. -/
def GetHandler (deps : GetDeps) (w : Response) (r : Request) : Option Response :=
  match parseURLPath r.Path with
  | none => none
  | some (vid, fid, ext) =>
    let n := Needle.zero
    let volumeId := ParseUintValue vid
    let n := n.ParsePath fid
    let cookie := n.Cookie
    let n := (deps.storeRead volumeId n).1
    if n.Cookie ≠ cookie then some w
    else
      let wn : Response × Needle :=
        if ext ≠ [] then
          let mtype := deps.typeByExtension ext
          let w := { w with headers := w.headers ++ [(bytesOf "Content-Type", mtype)] }
          if deps.isCompressable ext mtype = true then
            if Contains r.AcceptEncoding (bytesOf "gzip") = true then
              ({ w with headers := w.headers ++ [(bytesOf "Content-Encoding", bytesOf "gzip")] },
                n)
            else (w, { n with Data := deps.unGzipData n.Data })
          else (w, n)
        else (w, n)
      some { wn.1 with body := wn.1.body ++ wn.2.Data }

/-! ## Vocabulary for statements about file ids -/

/-- The hash part of a file id as `ParsePath` splits it: the text before the
last `_` when that `_` is not the first byte, else the whole string. -/
def hashPart (fid : List Nat) : List Nat :=
  if LastIndex fid 95 > 0 then fid.take (LastIndex fid 95).toNat else fid

/-- The delta part of a file id as `ParsePath` splits it: the text after the
last `_` when that `_` is not the first byte, else empty. -/
def deltaPart (fid : List Nat) : List Nat :=
  if LastIndex fid 95 > 0 then fid.drop ((LastIndex fid 95).toNat + 1) else []

/-- The hash part hex-decodes to more than 4 bytes. -/
def hashDecodes (fid : List Nat) : Bool :=
  match hexDecode (hashPart fid) with
  | some bytes => decide (4 < bytes.length)
  | none => false

/-! ## Vocabulary for statements about runs of `NextFileId` -/

/-- The count `NextFileId` works with for the count string `c`: the parsed
value, `1` for the empty string, `none` when the call is rejected with `(0, 0)`. -/
def countOf (c : List Nat) : Option Nat :=
  match ParseUint c with
  | some count => some count
  | none => if c.length > 0 then none else some 1

/-- The count of `c` is between 1 and `FileIdSaveInterval`. -/
def countInRange (c : List Nat) : Bool :=
  match countOf c with
  | some count => decide (1 ≤ count ∧ count ≤ FileIdSaveInterval)
  | none => false

/-- The call `NextFileId(c)` in state `m` reserves a new interval and the
addition `FileIdSequence += FileIdSaveInterval` exceeds 64 bits. -/
def Mapper.seqOverflows (m : Mapper) (c : List Nat) : Bool :=
  match countOf c with
  | some count =>
    decide (m.fileIdCounter < count ∧ 2 ^ 64 ≤ m.FileIdSequence + FileIdSaveInterval)
  | none => false

/-- No call of the run overflows `FileIdSequence`. -/
def Mapper.noOverflowRun (m : Mapper) : List (List Nat) → Bool
  | [] => true
  | c :: cs => !m.seqOverflows c && Mapper.noOverflowRun (m.NextFileId c).1 cs

/-- Loading the stored value in `NewMapper` does not overflow 64 bits. -/
def loadNoOverflow (seqFile : Option Nat) : Bool :=
  match seqFile with
  | some stored => decide (stored + FileIdSaveInterval < 2 ^ 64)
  | none => true

/-- The key range `[start_key, start_key + granted_count - 1]` of one answer
contains `x`. -/
def inRange (r : Nat × Int) (x : Int) : Prop :=
  (r.1 : Int) ≤ x ∧ x ≤ (r.1 : Int) + r.2 - 1

instance (r : Nat × Int) (x : Int) : Decidable (inRange r x) := by
  unfold inRange; infer_instance

/-! ## Theorems: needle framing -/

theorem bytesToUint32_toBytes (v : Nat) (h : v < 2 ^ 32) :
    BytesToUint32 (Uint32toBytes v) = v := by
  simp only [BytesToUint32, Uint32toBytes, List.foldl_cons, List.foldl_nil]
  omega

theorem bytesToUint64_toBytes (v : Nat) (h : v < 2 ^ 64) :
    BytesToUint64 (Uint64toBytes v) = v := by
  simp only [BytesToUint64, Uint64toBytes, List.foldl_cons, List.foldl_nil]
  omega

theorem int32_uint32_roundtrip (c : Int) (h1 : -2 ^ 31 ≤ c) (h2 : c < 2 ^ 31) :
    int32OfUint32 (uint32OfInt32 c) = c := by
  unfold int32OfUint32 uint32OfInt32
  have h3 : ((c % 2 ^ 32).toNat : Int) = c % 2 ^ 32 := by
    apply Int.toNat_of_nonneg
    omega
  split <;> omega

theorem restOf_le (size : Nat) : 1 ≤ restOf size ∧ restOf size ≤ 8 := by
  unfold restOf; omega

/-- Layout of the bytes `Append` writes: header, data, checksum, then the
first `rest` bytes of the key field left in the reused header buffer. -/
theorem append_written (n : Needle) (w : List Nat) :
    (n.Append w).written =
      w ++ (Uint32toBytes n.Cookie ++ Uint64toBytes n.Key ++
              Uint32toBytes (n.Data.length % 2 ^ 32)) ++ n.Data ++
        (Uint32toBytes (uint32OfInt32 n.Checksum) ++
          (Uint64toBytes n.Key).take (restOf (n.Data.length % 2 ^ 32))) := by
  have hr := restOf_le (n.Data.length % 2 ^ 32)
  simp only [Needle.Append, writeAt, Uint32toBytes, Uint64toBytes]
  generalize restOf (n.Data.length % 2 ^ 32) = rest at hr
  have : rest = 1 ∨ rest = 2 ∨ rest = 3 ∨ rest = 4 ∨ rest = 5 ∨ rest = 6 ∨ rest = 7 ∨ rest = 8 := by
    omega
  rcases this with h | h | h | h | h | h | h | h <;> subst h <;> simp

theorem slice_mid (a b c : List Nat) (lo hi : Nat) (h1 : lo = a.length)
    (h2 : hi = a.length + b.length) : slice (a ++ b ++ c) lo hi = some b := by
  subst h1 h2
  simp [slice]

theorem readInto_prefix (a p : List Nat) (h : 0 < a.length) :
    readInto (a ++ p) a.length = (a, a.length, false, p) := by
  have hne : a ≠ [] := by
    intro h0; rw [h0] at h; simp at h
  simp [readInto, hne]

theorem read_frame (n0 : Needle) (hc hk hs dat ck tail : List Nat) (size : Nat)
    (h1 : hc.length = 4) (h2 : hk.length = 8) (h3 : hs.length = 4) (h4 : dat.length = size)
    (h5 : ck.length = 4) (h6 : size + 20 < 2 ^ 32) :
    Needle.Read n0 (hc ++ hk ++ hs ++ dat ++ ck ++ tail) size =
      some { needle := { n0 with Cookie := BytesToUint32 hc, Key := BytesToUint64 hk,
                                 Size := BytesToUint32 hs, Data := dat,
                                 Checksum := int32OfUint32 (BytesToUint32 ck) },
             count := size + 20, err := false, remaining := tail } := by
  have hlen : (hc ++ hk ++ hs ++ dat ++ ck).length = size + 20 := by
    simp only [List.length_append]; omega
  have e1 : (size + 16 + 4) % 2 ^ 32 = (hc ++ hk ++ hs ++ dat ++ ck).length := by
    rw [hlen]; omega
  have e2 : (16 + size) % 2 ^ 32 = 16 + size := by omega
  have e3 : (16 + size + 4) % 2 ^ 32 = 16 + size + 4 := by omega
  have hri := readInto_prefix (hc ++ hk ++ hs ++ dat ++ ck) tail (by rw [hlen]; omega)
  have s1 : slice (hc ++ hk ++ hs ++ dat ++ ck) 0 4 = some hc := by
    have := slice_mid [] hc (hk ++ hs ++ dat ++ ck) 0 4 rfl (by simp only [List.length_append, List.length_nil]; omega)
    simpa using this
  have s2 : slice (hc ++ hk ++ hs ++ dat ++ ck) 4 12 = some hk := by
    have := slice_mid hc hk (hs ++ dat ++ ck) 4 12 h1.symm (by omega)
    simpa using this
  have s3 : slice (hc ++ hk ++ hs ++ dat ++ ck) 12 16 = some hs := by
    have := slice_mid (hc ++ hk) hs (dat ++ ck) 12 16 (by simp only [List.length_append]; omega) (by simp only [List.length_append]; omega)
    simpa using this
  have s4 : slice (hc ++ hk ++ hs ++ dat ++ ck) 16 (16 + size) = some dat := by
    have := slice_mid (hc ++ hk ++ hs) dat ck 16 (16 + size) (by simp only [List.length_append]; omega)
      (by simp only [List.length_append]; omega)
    simpa using this
  have s5 : slice (hc ++ hk ++ hs ++ dat ++ ck) (16 + size) (16 + size + 4) = some ck := by
    have := slice_mid (hc ++ hk ++ hs ++ dat) ck [] (16 + size) (16 + size + 4)
      (by simp only [List.length_append]; omega) (by simp only [List.length_append]; omega)
    simpa using this
  unfold Needle.Read
  rw [e1, e2, e3]
  have happ : hc ++ hk ++ hs ++ dat ++ ck ++ tail = (hc ++ hk ++ hs ++ dat ++ ck) ++ tail := rfl
  rw [happ, hri]
  simp only [s1, s2, s3, s4, s5, hlen]
  rfl

/-- C1 (needle round trip): for every cookie (`uint32`), key (`uint64`),
checksum (`int32`) and data with `len(data) + 20 < 2^32`, `Needle.Read` with
`size = len(data)` on the bytes `Needle.Append` wrote does not panic, yields the
same Cookie, Key, Data and Checksum with `Size = len(data)`, reports
`len(data) + 20` bytes read with a nil error, and leaves only the padding
unread. -/
theorem C1_needle_roundtrip (cookie key size0 : Nat) (checksum : Int) (data pad0 : List Nat)
    (n0 : Needle) (hc : cookie < 2 ^ 32) (hk : key < 2 ^ 64)
    (hs1 : -2 ^ 31 ≤ checksum) (hs2 : checksum < 2 ^ 31) (hd : data.length + 20 < 2 ^ 32) :
    Needle.Read n0
        (Needle.Append ⟨cookie, key, size0, data, checksum, pad0⟩ []).written data.length =
      some { needle := { n0 with Cookie := cookie, Key := key, Size := data.length,
                                 Data := data, Checksum := checksum },
             count := data.length + 20, err := false,
             remaining := (Uint64toBytes key).take (restOf data.length) } := by
  have hsz : data.length % 2 ^ 32 = data.length := by omega
  rw [append_written]
  simp only [hsz, List.nil_append]
  have hu : uint32OfInt32 checksum < 2 ^ 32 := by
    unfold uint32OfInt32; omega
  have := read_frame n0 (Uint32toBytes cookie) (Uint64toBytes key) (Uint32toBytes data.length)
    data (Uint32toBytes (uint32OfInt32 checksum))
    ((Uint64toBytes key).take (restOf data.length)) data.length
    (by simp [Uint32toBytes]) (by simp [Uint64toBytes]) (by simp [Uint32toBytes]) rfl
    (by simp [Uint32toBytes]) hd
  rw [bytesToUint32_toBytes cookie hc, bytesToUint64_toBytes key hk,
    bytesToUint32_toBytes data.length (by omega),
    bytesToUint32_toBytes _ hu, int32_uint32_roundtrip checksum hs1 hs2] at this
  rw [← this]
  simp [List.append_assoc]

/-- C1 at a concrete needle: cookie `0x11111111`, key 42, data `hello`. -/
theorem C1_needle_roundtrip_witness :
    Needle.Read ⟨0, 0, 0, [], 0, []⟩
        (Needle.Append ⟨0x11111111, 42, 0, bytesOf "hello", -5, []⟩ []).written
        (bytesOf "hello").length =
      some { needle := { (⟨0, 0, 0, [], 0, []⟩ : Needle) with
                           Cookie := 0x11111111, Key := 42, Size := (bytesOf "hello").length,
                           Data := bytesOf "hello", Checksum := -5 },
             count := (bytesOf "hello").length + 20, err := false,
             remaining := (Uint64toBytes 42).take (restOf (bytesOf "hello").length) } :=
  C1_needle_roundtrip 0x11111111 42 0 (-5) (bytesOf "hello") [] ⟨0, 0, 0, [], 0, []⟩
    (by decide) (by decide) (by decide) (by decide) (by decide)

/-- C2 (frame size and alignment): for every needle with `len(Data) < 2^32`,
`Needle.Append` extends the writer by exactly `16 + len(Data) + 4 + pad` bytes
with `pad = 8 - ((len(Data) + 20) mod 8)`; `pad` lies in `[1, 8]`, the total is
a multiple of 8, and 5, 12 and 0 data bytes give frames of 32, 40 and 24
bytes. -/
theorem C2_frame_size (n : Needle) (w : List Nat) (h : n.Data.length < 2 ^ 32) :
    (n.Append w).written.length =
        w.length + (16 + n.Data.length + 4 + (8 - ((n.Data.length + 20) % 8))) ∧
      w <+: (n.Append w).written ∧
      1 ≤ 8 - ((n.Data.length + 20) % 8) ∧ 8 - ((n.Data.length + 20) % 8) ≤ 8 ∧
      (16 + n.Data.length + 4 + (8 - ((n.Data.length + 20) % 8))) % 8 = 0 ∧
      (n.Data.length = 5 → (n.Append w).written.length = w.length + 32) ∧
      (n.Data.length = 12 → (n.Append w).written.length = w.length + 40) ∧
      (n.Data.length = 0 → (n.Append w).written.length = w.length + 24) := by
  have hsz : n.Data.length % 2 ^ 32 = n.Data.length := by omega
  have hr := restOf_le n.Data.length
  have hrest : restOf n.Data.length = 8 - ((n.Data.length + 20) % 8) := by
    unfold restOf; omega
  have hlen : (n.Append w).written.length =
      w.length + (16 + n.Data.length + 4 + (8 - ((n.Data.length + 20) % 8))) := by
    rw [append_written, hsz, hrest]
    simp only [List.length_append, List.length_take, Uint32toBytes, Uint64toBytes,
      List.length_cons, List.length_nil]
    omega
  refine ⟨hlen, ?_, by omega, by omega, by omega, ?_, ?_, ?_⟩
  · rw [append_written]
    simp only [List.append_assoc]
    exact List.prefix_append _ _
  · intro h5; rw [hlen, h5]
  · intro h12; rw [hlen, h12]
  · intro h0; rw [hlen, h0]

/-- C2 at a concrete needle with five data bytes: a 32-byte frame. -/
theorem C2_frame_size_witness :
    (Needle.Append ⟨0x11111111, 42, 0, bytesOf "hello", -5, []⟩ []).written.length = 32 :=
  ((C2_frame_size ⟨0x11111111, 42, 0, bytesOf "hello", -5, []⟩ [] (by decide)).2.2.2.2.2.1
    (by decide))

/-! ## Theorems: file-id codec -/

theorem fromHexChar_hexDigit (d : Nat) (h : d < 16) : fromHexChar (hexDigit d) = some d := by
  unfold fromHexChar hexDigit
  by_cases h10 : d < 10
  · simp only [h10, if_true]
    rw [if_pos (by omega)]
    congr 1; omega
  · simp only [h10, if_false]
    rw [if_neg (by omega), if_pos (by omega)]
    congr 1; omega

theorem hexDigit_ne_underscore (d : Nat) (h : d < 16) : hexDigit d ≠ 95 := by
  unfold hexDigit
  split <;> omega

theorem hexDecode_hexEncode (bs : List Nat) (h : ∀ b ∈ bs, b < 256) :
    hexDecode (hexEncode bs) = some bs := by
  induction bs with
  | nil => rfl
  | cons b bs ih =>
    have hb : b < 256 := h b (List.mem_cons_self _ _)
    have ih2 := ih (fun x hx => h x (List.mem_cons_of_mem _ hx))
    simp only [hexEncode, hexDecode, fromHexChar_hexDigit (b / 16) (by omega),
      fromHexChar_hexDigit (b % 16) (by omega), ih2]
    congr 2; omega

theorem underscore_not_mem_hexEncode (bs : List Nat) (h : ∀ b ∈ bs, b < 256) :
    95 ∉ hexEncode bs := by
  induction bs with
  | nil => simp [hexEncode]
  | cons b bs ih =>
    have hb : b < 256 := h b (List.mem_cons_self _ _)
    have ih2 := ih (fun x hx => h x (List.mem_cons_of_mem _ hx))
    simp only [hexEncode, List.mem_cons, not_or]
    exact ⟨(hexDigit_ne_underscore _ (by omega)).symm,
      (hexDigit_ne_underscore _ (by omega)).symm, ih2⟩

theorem lastIndex?_of_not_mem (s : List Nat) (c : Nat) (h : c ∉ s) : lastIndex? s c = none := by
  induction s with
  | nil => rfl
  | cons x xs ih =>
    simp only [List.mem_cons, not_or] at h
    simp only [lastIndex?, ih h.2]
    rw [if_neg (fun e => h.1 e.symm)]

theorem lastIndex?_append_sep (a b : List Nat) (c : Nat) (h : c ∉ b) :
    lastIndex? (a ++ c :: b) c = some a.length := by
  induction a with
  | nil => simp [lastIndex?, lastIndex?_of_not_mem b c h]
  | cons x xs ih => simp [lastIndex?, ih]

theorem fidBytes_lt (key cookie : Nat) :
    ∀ b ∈ Uint64toBytes key ++ Uint32toBytes cookie, b < 256 := by
  intro b hb
  simp only [Uint64toBytes, Uint32toBytes, List.cons_append, List.nil_append, List.mem_cons,
    List.mem_nil_iff, or_false] at hb
  omega

theorem hexEncode_length (bs : List Nat) : (hexEncode bs).length = 2 * bs.length := by
  induction bs with
  | nil => rfl
  | cons b bs ih => simp only [hexEncode, List.length_cons, ih]; omega

theorem fidHash_length (key cookie : Nat) : (fidHash key cookie).length = 24 := by
  simp [fidHash, hexEncode_length, Uint64toBytes, Uint32toBytes]

theorem parseKeyHash_fidHash (key cookie : Nat) (hk : key < 2 ^ 64) (hc : cookie < 2 ^ 32) :
    ParseKeyHash (fidHash key cookie) = (key, cookie) := by
  unfold ParseKeyHash fidHash
  rw [hexDecode_hexEncode _ (fidBytes_lt key cookie)]
  have hl : (Uint64toBytes key ++ Uint32toBytes cookie).length = 12 := by
    simp [Uint64toBytes, Uint32toBytes]
  have ht : (Uint64toBytes key ++ Uint32toBytes cookie).take 8 = Uint64toBytes key := by
    simp [Uint64toBytes]
  have hd : (Uint64toBytes key ++ Uint32toBytes cookie).drop 8 = Uint32toBytes cookie := by
    simp [Uint64toBytes]
  simp only [hl, show ¬ (12 ≤ 4) by omega, if_false, show 12 - 4 = 8 by rfl, ht, hd,
    bytesToUint64_toBytes key hk, bytesToUint32_toBytes cookie hc]

/-- C3 (file-id round trip): for every key (`uint64`) and cookie (`uint32`),
`Needle.ParsePath` applied to the 24-character hex text of the 8 big-endian key
bytes followed by the 4 big-endian cookie bytes sets `Key = key` and
`Cookie = cookie` and changes nothing else; `abcdef0123456789abcdef01` gives key
`0xabcdef0123456789` and cookie `0xabcdef01`. -/
theorem C3_fid_roundtrip (n : Needle) (key cookie : Nat) (hk : key < 2 ^ 64)
    (hc : cookie < 2 ^ 32) :
    (fidHash key cookie).length = 24 ∧
      n.ParsePath (fidHash key cookie) = { n with Key := key, Cookie := cookie } ∧
      fidHash 0xabcdef0123456789 0xabcdef01 = bytesOf "abcdef0123456789abcdef01" ∧
      n.ParsePath (bytesOf "abcdef0123456789abcdef01") =
        { n with Key := 0xabcdef0123456789, Cookie := 0xabcdef01 } := by
  have main : ∀ k c, k < 2 ^ 64 → c < 2 ^ 32 →
      n.ParsePath (fidHash k c) = { n with Key := k, Cookie := c } := by
    intro k c hk hc
    have hli : LastIndex (fidHash k c) 95 = -1 := by
      have h95 : lastIndex? (fidHash k c) 95 = none :=
        lastIndex?_of_not_mem _ _ (underscore_not_mem_hexEncode _ (fidBytes_lt k c))
      unfold LastIndex
      rw [h95]
    unfold Needle.ParsePath
    simp [fidHash_length, hli, parseKeyHash_fidHash k c hk hc]
  have hex : fidHash 0xabcdef0123456789 0xabcdef01 = bytesOf "abcdef0123456789abcdef01" := by
    decide
  refine ⟨fidHash_length key cookie, main key cookie hk hc, hex, ?_⟩
  rw [← hex]
  exact main _ _ (by norm_num) (by norm_num)

/-- C3 at key 42 and cookie `0x11111111`. -/
theorem C3_fid_roundtrip_witness :
    (fidHash 42 0x11111111).length = 24 ∧
      (⟨0, 0, 0, [], 0, []⟩ : Needle).ParsePath (fidHash 42 0x11111111) =
        { (⟨0, 0, 0, [], 0, []⟩ : Needle) with Key := 42, Cookie := 0x11111111 } ∧
      fidHash 0xabcdef0123456789 0xabcdef01 = bytesOf "abcdef0123456789abcdef01" ∧
      (⟨0, 0, 0, [], 0, []⟩ : Needle).ParsePath (bytesOf "abcdef0123456789abcdef01") =
        { (⟨0, 0, 0, [], 0, []⟩ : Needle) with
            Key := 0xabcdef0123456789, Cookie := 0xabcdef01 } :=
  C3_fid_roundtrip ⟨0, 0, 0, [], 0, []⟩ 42 0x11111111 (by decide) (by decide)

theorem decimal_ne_nil (d : Nat) : decimal d ≠ [] := by
  rw [decimal]
  split
  · simp
  · simp

theorem underscore_not_mem_decimal (d : Nat) : 95 ∉ decimal d := by
  induction d using Nat.strong_induction_on with
  | _ d ih =>
    rw [decimal]
    split
    · simp only [List.mem_singleton]; omega
    · rename_i h
      simp only [List.mem_append, List.mem_singleton, not_or]
      exact ⟨ih (d / 10) (by omega), by omega⟩

/-- The digit-accumulating fold of `ParseUint` reads back the decimal digits. -/
theorem foldlM_decimal (d : Nat) (h : d < 2 ^ 64) :
    (decimal d).foldlM (fun n c =>
      if 48 ≤ c ∧ c ≤ 57 then
        (if n * 10 + (c - 48) < 2 ^ 64 then some (n * 10 + (c - 48)) else none)
      else none) 0 = some d := by
  induction d using Nat.strong_induction_on with
  | _ d ih =>
    rw [decimal]
    split
    · rename_i h10
      simp only [List.foldlM_cons, List.foldlM_nil]
      rw [if_pos (by omega), if_pos (by omega)]
      simp
    · rename_i h10
      have e1 : 48 ≤ 48 + d % 10 ∧ 48 + d % 10 ≤ 57 := by omega
      have e3 : d / 10 * 10 + (48 + d % 10 - 48) = d := by omega
      have e2 : d / 10 * 10 + (48 + d % 10 - 48) < 2 ^ 64 := by omega
      rw [List.foldlM_append, ih (d / 10) (by omega) (by omega)]
      simp only [Option.bind_eq_bind, Option.some_bind, List.foldlM_cons, List.foldlM_nil,
        if_pos e1, e3, if_pos h]
      rfl

theorem parseUint_decimal (d : Nat) (h : d < 2 ^ 64) : ParseUint (decimal d) = some d := by
  unfold ParseUint
  rw [if_neg (decimal_ne_nil d)]
  exact foldlM_decimal d h

/-- C4 (file-id delta): for every key, cookie (`uint32`) and `d` with
`key + d < 2^64`, `Needle.ParsePath` applied to the 24-character hex text of
`(key, cookie)` followed by `_` and the decimal digits of `d` sets
`Key = key + d` and `Cookie = cookie`. -/
theorem C4_fid_delta (n : Needle) (key cookie d : Nat) (hc : cookie < 2 ^ 32)
    (hkd : key + d < 2 ^ 64) :
    n.ParsePath (fidHash key cookie ++ bytesOf "_" ++ decimal d) =
      { n with Key := key + d, Cookie := cookie } := by
  have hb : bytesOf "_" = [95] := by decide
  have hli : LastIndex (fidHash key cookie ++ bytesOf "_" ++ decimal d) 95 = 24 := by
    have h95 : lastIndex? (fidHash key cookie ++ bytesOf "_" ++ decimal d) 95 =
        some (fidHash key cookie).length := by
      rw [hb, List.append_assoc]
      exact lastIndex?_append_sep _ _ _ (underscore_not_mem_decimal d)
    unfold LastIndex
    rw [h95, fidHash_length]
    rfl
  have hl := fidHash_length key cookie
  have htake : (fidHash key cookie ++ bytesOf "_" ++ decimal d).take 24 = fidHash key cookie := by
    rw [List.append_assoc, ← hl, List.take_left']
    rfl
  have hdrop : (fidHash key cookie ++ bytesOf "_" ++ decimal d).drop 25 = decimal d := by
    have : (fidHash key cookie ++ bytesOf "_").length = 25 := by simp [hl, hb]
    rw [← this, List.drop_left']
    rfl
  unfold Needle.ParsePath
  simp only [hli]
  have hlen : ¬ (fidHash key cookie ++ bytesOf "_" ++ decimal d).length ≤ 8 := by
    simp only [List.length_append, hl]; omega
  rw [if_neg hlen]
  simp only [show ((24 : Int) > 0) by decide, if_true, show (24 : Int).toNat = 24 by rfl,
    htake, hdrop, parseKeyHash_fidHash key cookie (by omega) hc]
  rw [if_pos (decimal_ne_nil d)]
  simp only [parseUint_decimal d (by omega)]
  rw [Nat.mod_eq_of_lt hkd]

/-- C4 at key `0xabcdef0123456789`, cookie `0xabcdef01`, delta 17. -/
theorem C4_fid_delta_witness :
    (⟨0, 0, 0, [], 0, []⟩ : Needle).ParsePath
        (fidHash 0xabcdef0123456789 0xabcdef01 ++ bytesOf "_" ++ decimal 17) =
      { (⟨0, 0, 0, [], 0, []⟩ : Needle) with
          Key := 0xabcdef0123456789 + 17, Cookie := 0xabcdef01 } :=
  C4_fid_delta ⟨0, 0, 0, [], 0, []⟩ 0xabcdef0123456789 0xabcdef01 17 (by decide) (by decide)

/-! ## Theorems: file-id allocator -/

/-- `NextFileId` is the counted body applied to `countOf c`, or the rejection. -/
theorem nextFileId_countOf (m : Mapper) (c : List Nat) :
    m.NextFileId c =
      match countOf c with
      | some count => m.nextFileIdCount count
      | none => (m, 0, 0) := by
  unfold Mapper.NextFileId countOf
  cases ParseUint c with
  | some k => rfl
  | none =>
    by_cases h : c.length > 0
    · simp [h]
    · simp [h]

/-- One call with a count in `[1, FileIdSaveInterval]` and no wrap-around. -/
theorem nextFileIdCount_step (m : Mapper) (k : Nat) (hk1 : 1 ≤ k) (hk2 : k ≤ FileIdSaveInterval)
    (hc : m.fileIdCounter ≤ m.FileIdSequence) (hS : m.FileIdSequence < 2 ^ 64)
    (hno : m.fileIdCounter < k → m.FileIdSequence + FileIdSaveInterval < 2 ^ 64) :
    (m.nextFileIdCount k).1.fileIdCounter ≤ (m.nextFileIdCount k).1.FileIdSequence ∧
      (m.nextFileIdCount k).1.FileIdSequence < 2 ^ 64 ∧
      (m.nextFileIdCount k).2.1 =
        (m.nextFileIdCount k).1.FileIdSequence - (m.nextFileIdCount k).1.fileIdCounter ∧
      (m.nextFileIdCount k).2.2 = (k : Int) ∧
      m.FileIdSequence - m.fileIdCounter + k ≤ (m.nextFileIdCount k).2.1 ∧
      m.FileIdSequence ≤ (m.nextFileIdCount k).1.FileIdSequence ∧
      (m.fileIdCounter = 0 ∨ m.seqFile = some m.FileIdSequence →
        (m.nextFileIdCount k).1.seqFile = some (m.nextFileIdCount k).1.FileIdSequence) := by
  unfold FileIdSaveInterval at hk2 hno
  have hint : intOfUint64 k = (k : Int) := by
    unfold intOfUint64
    have : k % 2 ^ 64 = k := by omega
    rw [this, if_pos (by omega)]
  by_cases hlt : m.fileIdCounter < k
  · have h1 := hno hlt
    simp only [Mapper.nextFileIdCount, hlt, if_true, Mapper.saveSequence, FileIdSaveInterval,
      sub64, hint]
    refine ⟨?_, ?_, ?_, trivial, ?_, ?_, ?_⟩
    · omega
    · omega
    · omega
    · omega
    · omega
    · intro _; trivial
  · simp only [Mapper.nextFileIdCount, hlt, if_false, sub64, hint]
    refine ⟨?_, ?_, ?_, trivial, ?_, ?_, ?_⟩
    · omega
    · omega
    · omega
    · omega
    · omega
    · intro h
      rcases h with h | h
      · omega
      · exact h

/-- What `countInRange` says about `countOf`. -/
theorem countInRange_spec (c : List Nat) (h : countInRange c = true) :
    ∃ k, countOf c = some k ∧ 1 ≤ k ∧ k ≤ FileIdSaveInterval := by
  unfold countInRange at h
  cases hk : countOf c with
  | none => rw [hk] at h; exact absurd h (by simp)
  | some k =>
    rw [hk] at h
    simp only [decide_eq_true_eq] at h
    exact ⟨k, rfl, h.1, h.2⟩

/-- A run of calls with counts in `[1, FileIdSaveInterval]` and no overflow:
the state stays consistent, every start key lies above the frontier
`FileIdSequence - fileIdCounter` the run started from and at most at the final
`FileIdSequence`, and the start keys increase. -/
theorem nextFileIds_run (cs : List (List Nat)) :
    ∀ m : Mapper, m.fileIdCounter ≤ m.FileIdSequence → m.FileIdSequence < 2 ^ 64 →
      (∀ c ∈ cs, countInRange c = true) → m.noOverflowRun cs = true →
      (m.nextFileIds cs).1.fileIdCounter ≤ (m.nextFileIds cs).1.FileIdSequence ∧
      (m.nextFileIds cs).1.FileIdSequence < 2 ^ 64 ∧
      m.FileIdSequence ≤ (m.nextFileIds cs).1.FileIdSequence ∧
      (∀ r ∈ (m.nextFileIds cs).2,
        m.FileIdSequence - m.fileIdCounter < r.1 ∧
          r.1 ≤ (m.nextFileIds cs).1.FileIdSequence ∧ 1 ≤ r.2 ∧
          r.2 ≤ (FileIdSaveInterval : Int)) ∧
      List.Pairwise (· < ·) ((m.nextFileIds cs).2.map Prod.fst) ∧
      (m.seqFile = some m.FileIdSequence ∨ (m.fileIdCounter = 0 ∧ cs ≠ []) →
        (m.nextFileIds cs).1.seqFile = some (m.nextFileIds cs).1.FileIdSequence) := by
  induction cs with
  | nil =>
    intro m hc hS _ _
    simp only [Mapper.nextFileIds]
    refine ⟨hc, hS, le_refl _, ?_, ?_, ?_⟩
    · intro r hr; exact absurd hr (List.not_mem_nil _)
    · exact List.Pairwise.nil
    · intro h
      rcases h with h | h
      · exact h
      · exact absurd rfl h.2
  | cons c cs ih =>
    intro m hc hS hcs hno
    obtain ⟨k, hk, hk1, hk2⟩ := countInRange_spec c (hcs c (List.mem_cons_self _ _))
    have hstep : m.NextFileId c = m.nextFileIdCount k := by
      rw [nextFileId_countOf, hk]
    simp only [Mapper.noOverflowRun, Bool.and_eq_true, Bool.not_eq_true'] at hno
    have hov : m.fileIdCounter < k → m.FileIdSequence + FileIdSaveInterval < 2 ^ 64 := by
      intro hlt
      have h1 := hno.1
      unfold Mapper.seqOverflows at h1
      rw [hk] at h1
      simp only [decide_eq_false_iff_not, not_and, not_le] at h1
      exact h1 hlt
    obtain ⟨s1, s2, s3, s4, s5, s6, s7⟩ := nextFileIdCount_step m k hk1 hk2 hc hS hov
    have hrun := hno.2
    rw [hstep] at hrun
    obtain ⟨i1, i2, i3, i4, i5, i6⟩ :=
      ih (m.nextFileIdCount k).1 s1 s2 (fun x hx => hcs x (List.mem_cons_of_mem _ hx)) hrun
    simp only [Mapper.nextFileIds, hstep]
    refine ⟨i1, i2, le_trans s6 i3, ?_, ?_, ?_⟩
    · intro r hr
      rcases List.mem_cons.mp hr with h | h
      · subst h
        refine ⟨by omega, by omega, ?_, ?_⟩
        · rw [s4]; exact_mod_cast hk1
        · rw [s4]; exact_mod_cast hk2
      · have := i4 r h
        exact ⟨by omega, this.2.1, this.2.2.1, this.2.2.2⟩
    · simp only [List.map_cons, List.pairwise_cons]
      refine ⟨?_, i5⟩
      intro x hx
      obtain ⟨r, hr, rfl⟩ := List.mem_map.mp hx
      have := (i4 r hr).1
      omega
    · intro h
      apply i6
      left
      apply s7
      rcases h with h | h
      · right; exact h
      · left; exact h.1

/-- The sequence fields of a freshly built mapper. -/
theorem newMapper_fields (dir file : List Nat) (lim : Nat) (stored : Option Nat)
    (h : loadNoOverflow stored = true) :
    (NewMapper dir file lim stored).fileIdCounter = 0 ∧
      (NewMapper dir file lim stored).FileIdSequence < 2 ^ 64 ∧
      (NewMapper dir file lim stored).seqFile = stored ∧
      (∀ v, stored = some v →
        (NewMapper dir file lim stored).FileIdSequence = v + FileIdSaveInterval) := by
  cases stored with
  | none =>
    simp only [NewMapper, FileIdSaveInterval]
    refine ⟨trivial, by norm_num, trivial, ?_⟩
    intro v hv; exact absurd hv (by simp)
  | some v =>
    simp only [loadNoOverflow, decide_eq_true_eq] at h
    have hmod : (v + FileIdSaveInterval) % 2 ^ 64 = v + FileIdSaveInterval :=
      Nat.mod_eq_of_lt h
    simp only [NewMapper, hmod]
    refine ⟨trivial, h, trivial, ?_⟩
    intro w hw
    simp only [Option.some.injEq] at hw
    rw [hw]

/-- C5 (no overlapping id ranges), evaluated on the code: a mapper started
without a `.seq` file answers `NextFileId("5")` with `(10005, 5)` and the next
`NextFileId("1")` with `(10006, 1)`; key 10006 lies in both ranges
`[10005, 10009]` and `[10006, 10006]`. -/
theorem C5_ranges_overlap :
    ((NewMapper [] [] 0 none).nextFileIds [bytesOf "5", bytesOf "1"]).2 =
        [(10005, 5), (10006, 1)] ∧
      inRange (10005, 5) 10006 ∧ inRange (10006, 1) 10006 := by
  decide

/-- The answer of a call depends on `FileIdSequence` and `fileIdCounter` only. -/
theorem nextFileIdCount_snd (m m' : Mapper) (k : Nat)
    (h1 : m.FileIdSequence = m'.FileIdSequence) (h2 : m.fileIdCounter = m'.fileIdCounter) :
    (m.nextFileIdCount k).2 = (m'.nextFileIdCount k).2 := by
  unfold Mapper.nextFileIdCount
  by_cases h : m'.fileIdCounter < k
  · simp only [h1, h2, h, if_true, Mapper.saveSequence]
  · simp only [h1, h2, h, if_false]

/-- C6 as stated fails: (a) a mapper loaded from a stored value of
`2^64 - 20000` answers the counts 9999 and 1 with the start keys `2^64 - 1` and
then `0`; (b) a fresh mapper answers the counts 10001 and `2^64 - 1` with the
start keys 20001 and then 20000.  All four granted counts are non-zero. -/
theorem C6_counterexample :
    ((∀ r ∈ ((NewMapper [] [] 0 (some (2 ^ 64 - 20000))).nextFileIds
          [bytesOf "9999", bytesOf "1"]).2, r.2 ≠ 0) ∧
      ¬ List.Chain' (· < ·)
        (((NewMapper [] [] 0 (some (2 ^ 64 - 20000))).nextFileIds
          [bytesOf "9999", bytesOf "1"]).2.map Prod.fst)) ∧
    ((∀ r ∈ ((NewMapper [] [] 0 none).nextFileIds
          [bytesOf "10001", bytesOf "18446744073709551615"]).2, r.2 ≠ 0) ∧
      ¬ List.Chain' (· < ·)
        (((NewMapper [] [] 0 none).nextFileIds
          [bytesOf "10001", bytesOf "18446744073709551615"]).2.map Prod.fst)) := by
  have e1 : ((NewMapper [] [] 0 (some (2 ^ 64 - 20000))).nextFileIds
      [bytesOf "9999", bytesOf "1"]).2 = [(18446744073709551615, 9999), (0, 1)] := by
    decide
  have e2 : ((NewMapper [] [] 0 none).nextFileIds
      [bytesOf "10001", bytesOf "18446744073709551615"]).2 = [(20001, 10001), (20000, -1)] := by
    decide
  rw [e1, e2]
  refine ⟨⟨by decide, ?_⟩, ⟨by decide, ?_⟩⟩
  · simp [List.Chain']
  · simp [List.Chain']

/-- C6 (allocator monotonicity), amended: from every mapper state with
`fileIdCounter ≤ FileIdSequence < 2^64`, over every sequence of `NextFileId`
calls whose counts lie between 1 and `FileIdSaveInterval` and during which
`FileIdSequence` does not overflow 64 bits, every granted count is non-zero and
each returned start key is strictly greater than the one before. -/
theorem C6_start_keys_increase (m : Mapper) (cs : List (List Nat))
    (hc : m.fileIdCounter ≤ m.FileIdSequence) (hS : m.FileIdSequence < 2 ^ 64)
    (hcs : ∀ c ∈ cs, countInRange c = true) (hno : m.noOverflowRun cs = true) :
    (∀ r ∈ (m.nextFileIds cs).2, r.2 ≠ 0) ∧
      List.Chain' (· < ·) ((m.nextFileIds cs).2.map Prod.fst) := by
  obtain ⟨_, _, _, h4, h5, _⟩ := nextFileIds_run cs m hc hS hcs hno
  refine ⟨?_, h5.chain'⟩
  intro r hr
  have := (h4 r hr).2.2.1
  omega

/-- C6 (amended) on a fresh mapper and the counts 5, empty string, 10000. -/
theorem C6_start_keys_increase_witness :
    (∀ r ∈ ((NewMapper [] [] 0 none).nextFileIds [bytesOf "5", bytesOf "", bytesOf "10000"]).2,
        r.2 ≠ 0) ∧
      List.Chain' (· < ·)
        (((NewMapper [] [] 0 none).nextFileIds
          [bytesOf "5", bytesOf "", bytesOf "10000"]).2.map Prod.fst) :=
  C6_start_keys_increase (NewMapper [] [] 0 none) [bytesOf "5", bytesOf "", bytesOf "10000"]
    (by decide) (by decide) (by decide) (by decide)

/-- C7 as stated fails, the second mapper's counts being left open: a fresh
mapper answers `NextFileId("1")` with `(10001, 1)` and saves 20000; the mapper
reloaded from that value answers the counts 10001, `2^63 - 1` and
`2^63 - 30000` with the start keys 40001, `2^63 + 40000` and then 10000, which
is not above 10001, while `FileIdSequence` never overflows and every granted
count is positive. -/
theorem C7_counterexample :
    ((NewMapper [] [] 0 none).nextFileIds [bytesOf "1"]).2 = [(10001, 1)] ∧
      ((NewMapper [] [] 0 none).nextFileIds [bytesOf "1"]).1.seqFile = some 20000 ∧
      (NewMapper [] [] 0 none).noOverflowRun [bytesOf "1"] = true ∧
      loadNoOverflow ((NewMapper [] [] 0 none).nextFileIds [bytesOf "1"]).1.seqFile = true ∧
      (NewMapper [] [] 0 ((NewMapper [] [] 0 none).nextFileIds [bytesOf "1"]).1.seqFile).noOverflowRun
        [bytesOf "10001", bytesOf "9223372036854775807", bytesOf "9223372036854745808"] = true ∧
      ((NewMapper [] [] 0 ((NewMapper [] [] 0 none).nextFileIds [bytesOf "1"]).1.seqFile).nextFileIds
        [bytesOf "10001", bytesOf "9223372036854775807", bytesOf "9223372036854745808"]).2 =
        [(40001, 10001), (9223372036854815808, 9223372036854775807),
         (10000, 9223372036854745808)] ∧
      ¬ (((10001 : Nat) : Int) + 1 - 1 < ((10000 : Nat) : Int)) := by
  decide

/-- C7 (no id reuse across a crash), amended: a mapper built by `NewMapper`
serves calls with counts in `[1, FileIdSaveInterval]`; a second mapper is built
by `NewMapper` from what the `.seq` file then holds and serves calls whose
counts lie in `[1, FileIdSaveInterval]` as well; no addition to
`FileIdSequence` overflows 64 bits.  Then every start key of the second mapper
is strictly greater than `start_key + granted_count - 1` of every call of the
first; and a mapper loaded from the stored value 20000 answers its first
`NextFileId("1")` with `(30001, 1)`. -/
theorem C7_no_reuse_across_crash (dir file : List Nat) (lim1 lim2 : Nat) (stored : Option Nat)
    (cs1 cs2 : List (List Nat)) (hl1 : loadNoOverflow stored = true)
    (h1 : ∀ c ∈ cs1, countInRange c = true)
    (hn1 : (NewMapper dir file lim1 stored).noOverflowRun cs1 = true)
    (hl2 : loadNoOverflow ((NewMapper dir file lim1 stored).nextFileIds cs1).1.seqFile = true)
    (h2 : ∀ c ∈ cs2, countInRange c = true)
    (hn2 : (NewMapper dir file lim2
      ((NewMapper dir file lim1 stored).nextFileIds cs1).1.seqFile).noOverflowRun cs2 = true) :
    (∀ r1 ∈ ((NewMapper dir file lim1 stored).nextFileIds cs1).2,
      ∀ r2 ∈ ((NewMapper dir file lim2
          ((NewMapper dir file lim1 stored).nextFileIds cs1).1.seqFile).nextFileIds cs2).2,
        (r1.1 : Int) + r1.2 - 1 < (r2.1 : Int)) ∧
      ((NewMapper dir file lim2 (some 20000)).NextFileId (bytesOf "1")).2 = (30001, 1) := by
  refine ⟨?_, ?_⟩
  · intro r1 hr1 r2 hr2
    obtain ⟨a1, a2, a3, a4⟩ := newMapper_fields dir file lim1 stored hl1
    have hne : cs1 ≠ [] := by
      intro h0
      rw [h0] at hr1
      exact absurd hr1 (List.not_mem_nil _)
    obtain ⟨_, _, _, f4, _, f6⟩ :=
      nextFileIds_run cs1 (NewMapper dir file lim1 stored) (by omega) a2 h1 hn1
    have hsaved := f6 (Or.inr ⟨a1, hne⟩)
    obtain ⟨b1, b2, _, b4⟩ := newMapper_fields dir file lim2 _ hl2
    obtain ⟨_, _, _, g4, _, _⟩ :=
      nextFileIds_run cs2 _ (by omega) b2 h2 hn2
    have hb := b4 _ hsaved
    have hr1' := f4 r1 hr1
    have hr2' := (g4 r2 hr2).1
    rw [b1, hb] at hr2'
    have e1 := hr1'.2.1
    have e2 := hr1'.2.2.2
    unfold FileIdSaveInterval at hr2' e2
    omega
  · have hc : countOf (bytesOf "1") = some 1 := by decide
    have hd : ((NewMapper [] [] 0 (some 20000)).nextFileIdCount 1).2 = (30001, 1) := by decide
    rw [nextFileId_countOf, hc, ← hd]
    exact nextFileIdCount_snd _ _ 1 rfl rfl

/-- C7 (amended) on a fresh first mapper serving the counts 10000 and 7, and a
second mapper serving the count 1. -/
theorem C7_no_reuse_across_crash_witness :
    (∀ r1 ∈ ((NewMapper [] [] 0 none).nextFileIds [bytesOf "10000", bytesOf "7"]).2,
      ∀ r2 ∈ ((NewMapper [] [] 0
          ((NewMapper [] [] 0 none).nextFileIds
            [bytesOf "10000", bytesOf "7"]).1.seqFile).nextFileIds [bytesOf "1"]).2,
        (r1.1 : Int) + r1.2 - 1 < (r2.1 : Int)) ∧
      ((NewMapper [] [] 0 (some 20000)).NextFileId (bytesOf "1")).2 = (30001, 1) :=
  C7_no_reuse_across_crash [] [] 0 0 none [bytesOf "10000", bytesOf "7"] [bytesOf "1"]
    (by decide) (by decide) (by decide) (by decide) (by decide) (by decide)

/-! ## Theorems: machine registry and directory index -/

/-- The ids of the volumes of one machine that are below the size limit. -/
theorem writers_inner (vols : List VolumeInfo) (lim : Nat) (w : List Nat) :
    vols.foldl (fun writers v => if v.Size < lim then writers ++ [v.Id] else writers) w =
      w ++ (vols.filter (fun v => decide (v.Size < lim))).map VolumeInfo.Id := by
  induction vols generalizing w with
  | nil => simp
  | cons v vs ih =>
    simp only [List.foldl_cons, ih, List.filter_cons]
    by_cases h : v.Size < lim
    · simp [h]
    · simp [h]

/-- The ids below the size limit over all machines, in slot order. -/
theorem writers_outer (machines : List Machine) (lim : Nat) (w : List Nat) :
    machines.foldl (fun writers machine_entry =>
      machine_entry.Volumes.foldl (fun writers v =>
        if v.Size < lim then writers ++ [v.Id] else writers) writers) w =
      w ++ machines.flatMap (fun e =>
        (e.Volumes.filter (fun v => decide (v.Size < lim))).map VolumeInfo.Id) := by
  induction machines generalizing w with
  | nil => simp
  | cons e es ih =>
    rw [List.foldl_cons, ih, writers_inner, List.flatMap_cons, List.append_assoc]

/-- Membership in the rebuilt writer list. -/
theorem mem_rebuildWriters (machines : List Machine) (lim id : Nat) :
    id ∈ rebuildWriters machines lim ↔
      ∃ e ∈ machines, ∃ v ∈ e.Volumes, v.Id = id ∧ v.Size < lim := by
  unfold rebuildWriters
  rw [writers_outer]
  simp only [List.nil_append, List.mem_flatMap, List.mem_map, List.mem_filter,
    decide_eq_true_eq]
  constructor
  · rintro ⟨e, he, v, ⟨hv, hs⟩, rfl⟩
    exact ⟨e, he, v, hv, rfl, hs⟩
  · rintro ⟨e, he, v, hv, rfl, hs⟩
    exact ⟨e, he, v, ⟨hv, hs⟩, rfl⟩

/-- `Add` ends by rebuilding `Writers` from the new machine list. -/
theorem add_writers (m : Mapper) (x : Machine) :
    (m.Add x).Writers = rebuildWriters (m.Add x).Machines (m.Add x).volumeSizeLimit := rfl

/-- `Writers` is the rebuilt list after every run of `Add` calls. -/
theorem addAll_writers (ms : List Machine) :
    ∀ m : Mapper, m.Writers = rebuildWriters m.Machines m.volumeSizeLimit →
      (m.addAll ms).Writers =
        rebuildWriters (m.addAll ms).Machines (m.addAll ms).volumeSizeLimit := by
  induction ms with
  | nil => intro m h; exact h
  | cons x xs ih =>
    intro m _
    exact ih (m.Add x) (add_writers m x)

/-- C8 (writer-set truth): after any sequence of `Add` calls on a new mapper,
an id is in `Writers` exactly when some machine currently in `Machines`
advertises a volume with that id and `Size < volumeSizeLimit`; with a positive
limit, after machine A reports `[{1, 0}, {2, LIMIT}]` `Writers` is `[1]`, and
after A re-reports `[{1, LIMIT}, {2, 0}]` it is `[2]`. -/
theorem C8_writer_set (dir file : List Nat) (lim : Nat) (seq : Option Nat) (ms : List Machine)
    (url pub : List Nat) :
    (∀ id, id ∈ ((NewMapper dir file lim seq).addAll ms).Writers ↔
      ∃ e ∈ ((NewMapper dir file lim seq).addAll ms).Machines, ∃ v ∈ e.Volumes,
        v.Id = id ∧ v.Size < ((NewMapper dir file lim seq).addAll ms).volumeSizeLimit) ∧
      (0 < lim →
        ((NewMapper dir file lim seq).addAll [⟨⟨url, pub⟩, [⟨1, 0⟩, ⟨2, lim⟩]⟩]).Writers = [1] ∧
        ((NewMapper dir file lim seq).addAll
          [⟨⟨url, pub⟩, [⟨1, 0⟩, ⟨2, lim⟩]⟩,
           ⟨⟨url, pub⟩, [⟨1, lim⟩, ⟨2, 0⟩]⟩]).Writers = [2]) := by
  have h0 : (NewMapper dir file lim seq).Writers =
      rebuildWriters (NewMapper dir file lim seq).Machines
        (NewMapper dir file lim seq).volumeSizeLimit := by
    cases seq <;> rfl
  have hl : ∀ xs, ((NewMapper dir file lim seq).addAll xs).volumeSizeLimit = lim := by
    intro xs
    induction xs using List.reverseRecOn with
    | nil => cases seq <;> rfl
    | append_singleton xs x ih =>
      simp only [Mapper.addAll, List.foldl_append, List.foldl_cons, List.foldl_nil] at ih ⊢
      exact ih
  have hm : (NewMapper dir file lim seq).Machines = [] := by cases seq <;> rfl
  refine ⟨?_, ?_⟩
  · intro id
    rw [addAll_writers ms _ h0]
    exact mem_rebuildWriters _ _ id
  · intro hlim
    refine ⟨?_, ?_⟩
    · rw [addAll_writers _ _ h0, hl]
      simp [Mapper.addAll, Mapper.Add, hm, foundExistingMachineId, firstIndex, rebuildWriters,
        hlim]
    · rw [addAll_writers _ _ h0, hl]
      simp [Mapper.addAll, Mapper.Add, hm, foundExistingMachineId, firstIndex, rebuildWriters,
        hlim]

/-- C8 with limit 100: machine `a` reports, then reports again. -/
theorem C8_writer_set_witness :
    ((NewMapper [] [] 100 none).addAll
        [⟨⟨bytesOf "a", []⟩, [⟨1, 0⟩, ⟨2, 100⟩]⟩]).Writers = [1] ∧
      ((NewMapper [] [] 100 none).addAll
        [⟨⟨bytesOf "a", []⟩, [⟨1, 0⟩, ⟨2, 100⟩]⟩,
         ⟨⟨bytesOf "a", []⟩, [⟨1, 100⟩, ⟨2, 0⟩]⟩]).Writers = [2] :=
  (C8_writer_set [] [] 100 none [] (bytesOf "a") []).2 (by decide)

/-- The search finds nothing exactly when no machine has the url. -/
theorem firstIndex_eq_none (l : List Machine) (u : List Nat) :
    firstIndex l u = none ↔ ∀ e ∈ l, e.Server.Url ≠ u := by
  induction l with
  | nil => simp [firstIndex]
  | cons e es ih =>
    simp only [firstIndex, List.mem_cons, forall_eq_or_imp]
    by_cases h : u = e.Server.Url
    · simp [h]
    · simp only [h, if_false, Option.map_eq_none', ih]
      constructor
      · intro h2; exact ⟨fun h3 => h h3.symm, h2⟩
      · intro h2; exact h2.2

/-- The search returns the first slot holding the url. -/
theorem firstIndex_eq_some (l : List Machine) (u : List Nat) :
    ∀ i, firstIndex l u = some i →
      i < l.length ∧ (∃ e, l[i]? = some e ∧ e.Server.Url = u) ∧
        ∀ j, j < i → ∀ e, l[j]? = some e → e.Server.Url ≠ u := by
  induction l with
  | nil => intro i h; simp [firstIndex] at h
  | cons e es ih =>
    intro i h
    simp only [firstIndex] at h
    by_cases hu : u = e.Server.Url
    · simp only [hu, if_true, Option.some.injEq] at h
      subst h
      refine ⟨by simp, ⟨e, by simp, hu.symm⟩, ?_⟩
      intro j hj; omega
    · simp only [hu, if_false, Option.map_eq_some'] at h
      obtain ⟨i', hi', rfl⟩ := h
      obtain ⟨h1, ⟨e', he', hue'⟩, h3⟩ := ih i' hi'
      refine ⟨by simp; omega, ⟨e', by simpa using he', hue'⟩, ?_⟩
      intro j hj x hx
      cases j with
      | zero =>
        simp only [List.getElem?_cons_zero, Option.some.injEq] at hx
        subst hx
        exact fun h4 => hu h4.symm
      | succ j' =>
        simp only [List.getElem?_cons_succ] at hx
        exact h3 j' (by omega) x hx

/-- Replacing a machine by one with the same url moves no url. -/
theorem firstIndex_set (l : List Machine) (y : Machine) :
    ∀ j, firstIndex l y.Server.Url = some j →
      ∀ u, firstIndex (l.set j y) u = firstIndex l u := by
  induction l with
  | nil => intro j h; simp [firstIndex] at h
  | cons e es ih =>
    intro j h u
    simp only [firstIndex] at h
    by_cases hy : y.Server.Url = e.Server.Url
    · simp only [hy, if_true, Option.some.injEq] at h
      subst h
      simp only [List.set_cons_zero, firstIndex, hy]
    · simp only [hy, if_false, Option.map_eq_some'] at h
      obtain ⟨j', hj', rfl⟩ := h
      simp only [List.set_cons_succ, firstIndex, ih j' hj' u]

/-- Appending a machine moves no url already present. -/
theorem firstIndex_append_some (l : List Machine) (y : Machine) (u : List Nat) :
    ∀ i, firstIndex l u = some i → firstIndex (l ++ [y]) u = some i := by
  induction l with
  | nil => intro i h; simp [firstIndex] at h
  | cons e es ih =>
    intro i h
    simp only [firstIndex, List.cons_append] at h ⊢
    by_cases hu : u = e.Server.Url
    · simp only [hu, if_true] at h ⊢
      exact h
    · simp only [hu, if_false, Option.map_eq_some'] at h ⊢
      obtain ⟨i', hi', rfl⟩ := h
      exact ⟨i', ih i' hi', rfl⟩

/-- A machine with a new url is found in the appended last slot. -/
theorem firstIndex_append_none (l : List Machine) (y : Machine)
    (h : firstIndex l y.Server.Url = none) :
    firstIndex (l ++ [y]) y.Server.Url = some l.length := by
  induction l with
  | nil => simp [firstIndex]
  | cons e es ih =>
    simp only [firstIndex, List.cons_append] at h ⊢
    by_cases hu : y.Server.Url = e.Server.Url
    · simp [hu] at h
    · simp only [hu, if_false, Option.map_eq_none'] at h
      have ih2 := ih h
      simp only [hu, if_false, List.length_cons]
      show Option.map (fun x => x + 1) (firstIndex (es ++ [y]) y.Server.Url) = _
      rw [ih2]
      rfl

/-- The machine list and the slot number plus one that `Add` works with. -/
theorem add_machines (m : Mapper) (x : Machine) :
    (m.Add x).Machines =
      match firstIndex m.Machines x.Server.Url with
      | some i => m.Machines.set i x
      | none => m.Machines ++ [x] := by
  unfold Mapper.Add foundExistingMachineId
  cases firstIndex m.Machines x.Server.Url with
  | none => simp
  | some i =>
    have h : ¬ ((i : Int) < 0) := by omega
    simp [h]

/-- C9 (machine identity): `Add` of a machine whose url equals that of a
machine already in `Machines` leaves the length unchanged, puts the new record
into the first slot holding that url and leaves every other slot unchanged;
`Add` of a machine with a url not yet present appends it as the last slot and
leaves every existing slot unchanged. -/
theorem C9_machine_identity (m : Mapper) (x : Machine) :
    ((∃ e ∈ m.Machines, e.Server.Url = x.Server.Url) →
      (m.Add x).Machines.length = m.Machines.length ∧
        ∃ i, i < m.Machines.length ∧
          (∃ e, m.Machines[i]? = some e ∧ e.Server.Url = x.Server.Url) ∧
          (∀ j, j < i → ∀ e, m.Machines[j]? = some e → e.Server.Url ≠ x.Server.Url) ∧
          (m.Add x).Machines = m.Machines.set i x ∧
          (m.Add x).Machines[i]? = some x ∧
          ∀ j, j ≠ i → (m.Add x).Machines[j]? = m.Machines[j]?) ∧
      ((∀ e ∈ m.Machines, e.Server.Url ≠ x.Server.Url) →
        (m.Add x).Machines = m.Machines ++ [x] ∧
          (m.Add x).Machines[m.Machines.length]? = some x ∧
          ∀ j, j < m.Machines.length → (m.Add x).Machines[j]? = m.Machines[j]?) := by
  constructor
  · rintro ⟨e, he, hue⟩
    cases hf : firstIndex m.Machines x.Server.Url with
    | none => exact absurd hue ((firstIndex_eq_none _ _).mp hf e he)
    | some i =>
      obtain ⟨h1, h2, h3⟩ := firstIndex_eq_some _ _ i hf
      have hm : (m.Add x).Machines = m.Machines.set i x := by rw [add_machines, hf]
      refine ⟨by rw [hm, List.length_set], i, h1, h2, h3, hm, ?_, ?_⟩
      · rw [hm, List.getElem?_set_self h1]
      · intro j hj
        rw [hm, List.getElem?_set_ne (Ne.symm hj)]
  · intro hall
    have hf := (firstIndex_eq_none _ _).mpr hall
    have hm : (m.Add x).Machines = m.Machines ++ [x] := by rw [add_machines, hf]
    refine ⟨hm, ?_, ?_⟩
    · rw [hm, List.getElem?_concat_length]
    · intro j hj
      rw [hm, List.getElem?_append_left hj]

/-- C9 on a mapper holding machines `a` and `b`, re-adding `b`. -/
theorem C9_machine_identity_witness :
    (((NewMapper [] [] 100 none).addAll
          [⟨⟨bytesOf "a", []⟩, [⟨1, 0⟩]⟩, ⟨⟨bytesOf "b", []⟩, [⟨2, 0⟩]⟩]).Add
        ⟨⟨bytesOf "b", []⟩, [⟨3, 0⟩]⟩).Machines.length =
      ((NewMapper [] [] 100 none).addAll
          [⟨⟨bytesOf "a", []⟩, [⟨1, 0⟩]⟩, ⟨⟨bytesOf "b", []⟩, [⟨2, 0⟩]⟩]).Machines.length :=
  ((C9_machine_identity
      ((NewMapper [] [] 100 none).addAll
        [⟨⟨bytesOf "a", []⟩, [⟨1, 0⟩]⟩, ⟨⟨bytesOf "b", []⟩, [⟨2, 0⟩]⟩])
      ⟨⟨bytesOf "b", []⟩, [⟨3, 0⟩]⟩).1
    ⟨⟨⟨bytesOf "b", []⟩, [⟨2, 0⟩]⟩, by decide, rfl⟩).1

/-- Reading a map after one write. -/
theorem mapGet_mapSet (mp : List (Nat × Int)) (k : Nat) (val : Int) (vid : Nat) :
    mapGet (mapSet mp k val) vid = if k = vid then val else mapGet mp vid := by
  unfold mapGet mapSet
  by_cases h : k = vid
  · subst h; simp [List.lookup_cons]
  · have h2 : (vid == k) = false := by
      simp only [beq_eq_false_iff_ne, ne_eq]
      exact fun e => h e.symm
    simp [List.lookup_cons, h, h2]

/-- Reading the index after the volume loop of `Add`. -/
theorem mapGet_fold (vols : List VolumeInfo) (val : Int) (vid : Nat) :
    ∀ mp : List (Nat × Int),
      mapGet (vols.foldl (fun mp v => mapSet mp v.Id val) mp) vid =
        if (∃ v ∈ vols, v.Id = vid) then val else mapGet mp vid := by
  induction vols with
  | nil => intro mp; simp
  | cons v vs ih =>
    intro mp
    rw [List.foldl_cons, ih, mapGet_mapSet]
    by_cases h1 : ∃ w ∈ vs, w.Id = vid
    · have h2 : ∃ w ∈ v :: vs, w.Id = vid := by
        obtain ⟨w, hw, e⟩ := h1
        exact ⟨w, List.mem_cons_of_mem _ hw, e⟩
      rw [if_pos h1, if_pos h2]
    · rw [if_neg h1]
      by_cases h3 : v.Id = vid
      · have h2 : ∃ w ∈ v :: vs, w.Id = vid := ⟨v, List.mem_cons_self _ _, h3⟩
        rw [if_pos h3, if_pos h2]
      · have h2 : ¬ ∃ w ∈ v :: vs, w.Id = vid := by
          rintro ⟨w, hw, e⟩
          rcases List.mem_cons.mp hw with hw | hw
          · subst hw; exact h3 e
          · exact h1 ⟨w, hw, e⟩
        rw [if_neg h3, if_neg h2]

/-- The slot `Add` uses for a machine: the one it already has, or a new last
one. -/
theorem add_slot (m : Mapper) (x : Machine) :
    ∃ i, firstIndex (m.Add x).Machines x.Server.Url = some i ∧
      (m.Add x).Machines[i]? = some x ∧
      (∀ u j, firstIndex m.Machines u = some j → firstIndex (m.Add x).Machines u = some j) ∧
      ∀ vid, mapGet (m.Add x).vid2machineId vid =
        if (∃ v ∈ x.Volumes, v.Id = vid) then (i : Int) + 1 else mapGet m.vid2machineId vid := by
  cases hf : firstIndex m.Machines x.Server.Url with
  | none =>
    have hm : (m.Add x).Machines = m.Machines ++ [x] := by rw [add_machines, hf]
    refine ⟨m.Machines.length, ?_, ?_, ?_, ?_⟩
    · rw [hm]; exact firstIndex_append_none _ _ hf
    · rw [hm, List.getElem?_concat_length]
    · intro u j hj
      rw [hm]; exact firstIndex_append_some _ _ _ _ hj
    · intro vid
      simp only [Mapper.Add, foundExistingMachineId, hf]
      rw [if_pos (by omega)]
      exact mapGet_fold _ _ _ _
  | some i =>
    obtain ⟨h1, _, _⟩ := firstIndex_eq_some _ _ i hf
    have hm : (m.Add x).Machines = m.Machines.set i x := by rw [add_machines, hf]
    refine ⟨i, ?_, ?_, ?_, ?_⟩
    · rw [hm, firstIndex_set _ _ i hf]; exact hf
    · rw [hm, List.getElem?_set_self h1]
    · intro u j hj
      rw [hm, firstIndex_set _ _ i hf]; exact hj
    · intro vid
      simp only [Mapper.Add, foundExistingMachineId, hf]
      rw [if_neg (by omega)]
      exact mapGet_fold _ _ _ _

/-- A run of `Add` calls ends with its last call. -/
theorem addAll_concat (m : Mapper) (ms : List Machine) (y : Machine) :
    m.addAll (ms ++ [y]) = (m.addAll ms).Add y := by
  simp [Mapper.addAll, List.foldl_append]

/-- The last element of a list satisfying a property, with what follows it. -/
theorem last_advertiser (p : Machine → Prop) (l : List Machine) (h : ∃ y ∈ l, p y) :
    ∃ pre x post, l = pre ++ x :: post ∧ p x ∧ ∀ y ∈ post, ¬ p y := by
  induction l with
  | nil => obtain ⟨y, hy, _⟩ := h; exact absurd hy (List.not_mem_nil _)
  | cons a l ih =>
    by_cases hl : ∃ y ∈ l, p y
    · obtain ⟨pre, x, post, e, hx, hpost⟩ := ih hl
      exact ⟨a :: pre, x, post, by rw [e]; rfl, hx, hpost⟩
    · obtain ⟨y, hy, hp⟩ := h
      rcases List.mem_cons.mp hy with hy | hy
      · subst hy
        exact ⟨[], y, l, rfl, hp, fun z hz hpz => hl ⟨z, hz, hpz⟩⟩
      · exact absurd ⟨y, hy, hp⟩ hl

/-- The directory index after a run of `Add` calls on an empty mapper. -/
theorem lookup_inv (m0 : Mapper) (hV : m0.vid2machineId = [])
    (vid : Nat) (ms : List Machine) :
    ((∀ y ∈ ms, ¬ ∃ v ∈ y.Volumes, v.Id = vid) →
        mapGet (m0.addAll ms).vid2machineId vid = 0) ∧
      ∀ pre x post, ms = pre ++ x :: post → (∃ v ∈ x.Volumes, v.Id = vid) →
        (∀ y ∈ post, ¬ ∃ v ∈ y.Volumes, v.Id = vid) →
        ∃ i, firstIndex (m0.addAll ms).Machines x.Server.Url = some i ∧
          mapGet (m0.addAll ms).vid2machineId vid = (i : Int) + 1 := by
  induction ms using List.reverseRecOn with
  | nil =>
    refine ⟨?_, ?_⟩
    · intro _
      simp [Mapper.addAll, hV, mapGet]
    · intro pre x post e
      exact absurd e (by simp)
  | append_singleton ms y ih =>
    obtain ⟨iha, ihb⟩ := ih
    obtain ⟨i, s1, _, s3, s4⟩ := add_slot (m0.addAll ms) y
    rw [addAll_concat]
    refine ⟨?_, ?_⟩
    · intro hall
      have hy := hall y (by simp)
      rw [s4 vid, if_neg hy]
      exact iha (fun z hz => hall z (by simp [hz]))
    · intro pre x post e hx hpost
      rcases List.eq_nil_or_concat post with hp | ⟨post', y', hp⟩
      · subst hp
        have e2 : ms ++ [y] = pre ++ [x] := e
        obtain ⟨e3, e4⟩ := List.append_inj' e2 rfl
        simp only [List.cons.injEq, and_true] at e4
        subst e4
        exact ⟨i, s1, by rw [s4 vid, if_pos hx]⟩
      · subst hp
        have e2 : ms ++ [y] = (pre ++ x :: post') ++ [y'] := by
          rw [e]; simp
        obtain ⟨e3, e4⟩ := List.append_inj' e2 rfl
        simp only [List.cons.injEq, and_true] at e4
        subst e4
        have hy : ¬ ∃ v ∈ y.Volumes, v.Id = vid := hpost y (by simp)
        obtain ⟨j, j1, j2⟩ := ihb pre x post' e3 hx (fun z hz => hpost z (by simp [hz]))
        exact ⟨j, s3 _ _ j1, by rw [s4 vid, if_neg hy]; exact j2⟩

/-- `Get` on an id whose index entry is zero is the error. -/
theorem get_of_mapGet_zero (m : Mapper) (vid : Nat) (h : mapGet m.vid2machineId vid = 0) :
    m.Get vid = GetResult.invalidVolumeId vid := by
  simp [Mapper.Get, h]

/-- `Get` on an id whose index entry is a held slot plus one returns that slot. -/
theorem get_of_slot (m : Mapper) (vid i : Nat) (u : List Nat)
    (hf : firstIndex m.Machines u = some i)
    (h : mapGet m.vid2machineId vid = (i : Int) + 1) :
    ∃ r, m.Machines[i]? = some r ∧ r.Server.Url = u ∧ m.Get vid = GetResult.ok r := by
  obtain ⟨_, ⟨e, he, hu⟩, _⟩ := firstIndex_eq_some _ _ i hf
  refine ⟨e, he, hu, ?_⟩
  have h1 : ¬ ((i : Int) + 1 ≤ 0) := by omega
  have h2 : ((i : Int) + 1 - 1).toNat = i := by omega
  simp only [Mapper.Get, h, h1, if_false, h2, he]

/-- C10 (directory lookup): in every state reached from a new mapper by `Add`
calls, `Get(vid)` is the `invalid volume id` error exactly when no `Add` so far
advertised `vid`, it never indexes `Machines` out of range, and when `x` is the
machine of the most recent `Add` that advertised `vid`, `Get(vid)` returns the
record currently held in the slot of `x` (the slot whose url is that of `x`). -/
theorem C10_directory_lookup (dir file : List Nat) (lim : Nat) (seq : Option Nat)
    (ms : List Machine) (vid : Nat) :
    (((NewMapper dir file lim seq).addAll ms).Get vid = GetResult.invalidVolumeId vid ↔
        ∀ y ∈ ms, ¬ ∃ v ∈ y.Volumes, v.Id = vid) ∧
      ((NewMapper dir file lim seq).addAll ms).Get vid ≠ GetResult.indexOutOfRange ∧
      ∀ pre x post, ms = pre ++ x :: post → (∃ v ∈ x.Volumes, v.Id = vid) →
        (∀ y ∈ post, ¬ ∃ v ∈ y.Volumes, v.Id = vid) →
        ∃ i r, firstIndex ((NewMapper dir file lim seq).addAll ms).Machines x.Server.Url = some i ∧
          ((NewMapper dir file lim seq).addAll ms).Machines[i]? = some r ∧
          r.Server.Url = x.Server.Url ∧
          ((NewMapper dir file lim seq).addAll ms).Get vid = GetResult.ok r := by
  have hV : (NewMapper dir file lim seq).vid2machineId = [] := by cases seq <;> rfl
  obtain ⟨ha, hb⟩ := lookup_inv (NewMapper dir file lim seq) hV vid ms
  have hok : (∃ y ∈ ms, ∃ v ∈ y.Volumes, v.Id = vid) →
      ∃ r, ((NewMapper dir file lim seq).addAll ms).Get vid = GetResult.ok r := by
    intro hex
    obtain ⟨pre, x, post, e, hx, hpost⟩ :=
      last_advertiser (fun y => ∃ v ∈ y.Volumes, v.Id = vid) ms hex
    obtain ⟨i, h1, h2⟩ := hb pre x post e hx hpost
    obtain ⟨r, _, _, hr⟩ := get_of_slot _ vid i _ h1 h2
    exact ⟨r, hr⟩
  refine ⟨⟨?_, ?_⟩, ?_, ?_⟩
  · intro hget y hy hadv
    obtain ⟨r, hr⟩ := hok ⟨y, hy, hadv⟩
    rw [hr] at hget
    exact GetResult.noConfusion hget
  · intro hall
    exact get_of_mapGet_zero _ vid (ha hall)
  · by_cases hex : ∃ y ∈ ms, ∃ v ∈ y.Volumes, v.Id = vid
    · obtain ⟨r, hr⟩ := hok hex
      rw [hr]
      exact fun h => GetResult.noConfusion h
    · have hall : ∀ y ∈ ms, ¬ ∃ v ∈ y.Volumes, v.Id = vid :=
        fun y hy hadv => hex ⟨y, hy, hadv⟩
      rw [get_of_mapGet_zero _ vid (ha hall)]
      exact fun h => GetResult.noConfusion h
  · intro pre x post e hx hpost
    obtain ⟨i, h1, h2⟩ := hb pre x post e hx hpost
    obtain ⟨r, hr1, hr2, hr3⟩ := get_of_slot _ vid i _ h1 h2
    exact ⟨i, r, h1, hr1, hr2, hr3⟩

/-- C10 on the run `a` (volumes 1, 2), `b` (volume 2), `a` again (volume 3):
volume 2 was last advertised by `b`. -/
theorem C10_directory_lookup_witness :
    ∃ i r, firstIndex ((NewMapper [] [] 100 none).addAll
          [⟨⟨bytesOf "a", []⟩, [⟨1, 0⟩, ⟨2, 0⟩]⟩, ⟨⟨bytesOf "b", []⟩, [⟨2, 0⟩]⟩,
           ⟨⟨bytesOf "a", []⟩, [⟨3, 0⟩]⟩]).Machines (bytesOf "b") = some i ∧
      ((NewMapper [] [] 100 none).addAll
          [⟨⟨bytesOf "a", []⟩, [⟨1, 0⟩, ⟨2, 0⟩]⟩, ⟨⟨bytesOf "b", []⟩, [⟨2, 0⟩]⟩,
           ⟨⟨bytesOf "a", []⟩, [⟨3, 0⟩]⟩]).Machines[i]? = some r ∧
      r.Server.Url = bytesOf "b" ∧
      ((NewMapper [] [] 100 none).addAll
          [⟨⟨bytesOf "a", []⟩, [⟨1, 0⟩, ⟨2, 0⟩]⟩, ⟨⟨bytesOf "b", []⟩, [⟨2, 0⟩]⟩,
           ⟨⟨bytesOf "a", []⟩, [⟨3, 0⟩]⟩]).Get 2 = GetResult.ok r :=
  (C10_directory_lookup [] [] 100 none
      [⟨⟨bytesOf "a", []⟩, [⟨1, 0⟩, ⟨2, 0⟩]⟩, ⟨⟨bytesOf "b", []⟩, [⟨2, 0⟩]⟩,
       ⟨⟨bytesOf "a", []⟩, [⟨3, 0⟩]⟩] 2).2.2
    [⟨⟨bytesOf "a", []⟩, [⟨1, 0⟩, ⟨2, 0⟩]⟩] ⟨⟨bytesOf "b", []⟩, [⟨2, 0⟩]⟩
    [⟨⟨bytesOf "a", []⟩, [⟨3, 0⟩]⟩] rfl (by decide) (by decide)

/-! ## Theorems: first call, single-id runs -/

/-- The answer of `NextFileId("1")` on a mapper built without a `.seq` file. -/
theorem fresh_first_call (dir file : List Nat) (lim : Nat) :
    ((NewMapper dir file lim none).NextFileId (bytesOf "1")).2 = (10001, 1) ∧
      ((NewMapper dir file lim none).NextFileId (bytesOf "1")).1.seqFile = some 20000 ∧
      ((NewMapper dir file lim none).NextFileId (bytesOf "1")).1.FileIdSequence = 20000 := by
  have hc : countOf (bytesOf "1") = some 1 := by decide
  have hd : ((NewMapper [] [] 0 none).nextFileIdCount 1).2 = (10001, 1) := by decide
  rw [nextFileId_countOf, hc]
  refine ⟨?_, ?_, ?_⟩
  · rw [← hd]
    exact nextFileIdCount_snd _ _ 1 rfl rfl
  · have h : (NewMapper dir file lim none).fileIdCounter < 1 := by
      show (0 : Nat) < 1
      omega
    simp only [Mapper.nextFileIdCount, h, if_true, Mapper.saveSequence]
    show some ((FileIdSaveInterval + FileIdSaveInterval) % 2 ^ 64) = some 20000
    decide
  · have h : (NewMapper dir file lim none).fileIdCounter < 1 := by
      show (0 : Nat) < 1
      omega
    simp only [Mapper.nextFileIdCount, h, if_true, Mapper.saveSequence]
    show (FileIdSaveInterval + FileIdSaveInterval) % 2 ^ 64 = 20000
    decide

/-- C11 as stated fails: on a mapper built with no `.seq` file the first
`NextFileId("1")` does not return `(1, 1)`. -/
theorem C11_counterexample :
    ((NewMapper [] [] 0 none).NextFileId (bytesOf "1")).2 ≠ (1, 1) := by
  decide

/-- C11 (fresh-start checkpoint), amended: on a mapper that `NewMapper` built
with no `.seq` file present, the first call `NextFileId("1")` returns
`(10001, 1)` and the `FileIdSequence` value saved to `.seq` is 20000. -/
theorem C11_fresh_start (dir file : List Nat) (lim : Nat) :
    ((NewMapper dir file lim none).NextFileId (bytesOf "1")).2 = (10001, 1) ∧
      ((NewMapper dir file lim none).NextFileId (bytesOf "1")).1.seqFile = some 20000 :=
  ⟨(fresh_first_call dir file lim).1, (fresh_first_call dir file lim).2.1⟩

/-- One single-id call without wrap-around, with the count kept symbolic. -/
theorem nextFileIdCount_one_aux (m : Mapper) (k : Nat) (hk : k = 1)
    (hc : m.fileIdCounter ≤ m.FileIdSequence) (hS : m.FileIdSequence < 2 ^ 64)
    (hno : m.fileIdCounter < k → m.FileIdSequence + FileIdSaveInterval < 2 ^ 64) :
    (m.nextFileIdCount k).2.1 = m.FileIdSequence - m.fileIdCounter + 1 ∧
      (m.nextFileIdCount k).2.2 = 1 ∧
      (m.nextFileIdCount k).1.fileIdCounter ≤ (m.nextFileIdCount k).1.FileIdSequence ∧
      (m.nextFileIdCount k).1.FileIdSequence < 2 ^ 64 ∧
      (m.nextFileIdCount k).1.FileIdSequence - (m.nextFileIdCount k).1.fileIdCounter =
        m.FileIdSequence - m.fileIdCounter + 1 := by
  unfold FileIdSaveInterval at hno
  have hint : intOfUint64 k = 1 := by
    unfold intOfUint64
    have : k % 2 ^ 64 = k := by omega
    rw [this, if_pos (by omega), hk]
    rfl
  by_cases hlt : m.fileIdCounter < k
  · have h1 := hno hlt
    simp only [Mapper.nextFileIdCount, hlt, if_true, Mapper.saveSequence, FileIdSaveInterval,
      sub64, hint]
    refine ⟨?_, trivial, ?_, ?_, ?_⟩
    · omega
    · omega
    · omega
    · omega
  · simp only [Mapper.nextFileIdCount, hlt, if_false, sub64, hint]
    refine ⟨?_, trivial, ?_, ?_, ?_⟩
    · omega
    · omega
    · omega
    · omega

/-- One single-id call without wrap-around: the start key is the frontier
`FileIdSequence - fileIdCounter` plus one, and becomes the new frontier. -/
theorem nextFileIdCount_one (m : Mapper) (hc : m.fileIdCounter ≤ m.FileIdSequence)
    (hS : m.FileIdSequence < 2 ^ 64)
    (hno : m.fileIdCounter < 1 → m.FileIdSequence + FileIdSaveInterval < 2 ^ 64) :
    (m.nextFileIdCount 1).2 = (m.FileIdSequence - m.fileIdCounter + 1, 1) ∧
      (m.nextFileIdCount 1).1.fileIdCounter ≤ (m.nextFileIdCount 1).1.FileIdSequence ∧
      (m.nextFileIdCount 1).1.FileIdSequence < 2 ^ 64 ∧
      (m.nextFileIdCount 1).1.FileIdSequence - (m.nextFileIdCount 1).1.fileIdCounter =
        m.FileIdSequence - m.fileIdCounter + 1 := by
  obtain ⟨a1, a2, a3, a4, a5⟩ := nextFileIdCount_one_aux m 1 rfl hc hS hno
  exact ⟨Prod.ext a1 a2, a3, a4, a5⟩

/-- The count of the strings `1` and the empty string is one. -/
theorem countOf_single (c : List Nat) (h : c = bytesOf "1" ∨ c = []) : countOf c = some 1 := by
  rcases h with h | h
  · subst h; decide
  · subst h; decide

/-- A run of single-id calls without wrap-around hands out consecutive keys,
starting right above the frontier. -/
theorem single_run (cs : List (List Nat)) :
    ∀ m : Mapper, m.fileIdCounter ≤ m.FileIdSequence → m.FileIdSequence < 2 ^ 64 →
      (∀ c ∈ cs, c = bytesOf "1" ∨ c = []) → m.noOverflowRun cs = true →
      (∀ r ∈ (m.nextFileIds cs).2, r.2 = 1) ∧
      (∀ y ∈ ((m.nextFileIds cs).2.map Prod.fst).head?,
        y = m.FileIdSequence - m.fileIdCounter + 1) ∧
      List.Chain' (fun a b => b = a + 1) ((m.nextFileIds cs).2.map Prod.fst) := by
  induction cs with
  | nil =>
    intro m _ _ _ _
    simp [Mapper.nextFileIds]
  | cons c cs ih =>
    intro m hc hS hcs hno
    have hk := countOf_single c (hcs c (List.mem_cons_self _ _))
    have hstep : m.NextFileId c = m.nextFileIdCount 1 := by
      rw [nextFileId_countOf, hk]
    simp only [Mapper.noOverflowRun, Bool.and_eq_true, Bool.not_eq_true'] at hno
    have hov : m.fileIdCounter < 1 → m.FileIdSequence + FileIdSaveInterval < 2 ^ 64 := by
      intro hlt
      have h1 := hno.1
      unfold Mapper.seqOverflows at h1
      rw [hk] at h1
      simp only [decide_eq_false_iff_not, not_and, not_le] at h1
      exact h1 hlt
    obtain ⟨s1, s2, s3, s4⟩ := nextFileIdCount_one m hc hS hov
    have hrun := hno.2
    rw [hstep] at hrun
    obtain ⟨i1, i2, i3⟩ :=
      ih (m.nextFileIdCount 1).1 s2 s3 (fun x hx => hcs x (List.mem_cons_of_mem _ hx)) hrun
    simp only [Mapper.nextFileIds, hstep, List.map_cons, List.head?_cons, Option.mem_def,
      Option.some.injEq]
    refine ⟨?_, ?_, ?_⟩
    · intro r hr
      rcases List.mem_cons.mp hr with h | h
      · rw [h, s1]
      · exact i1 r h
    · intro y hy
      rw [← hy, s1]
    · rw [List.chain'_cons']
      refine ⟨?_, i3⟩
      intro y hy
      have := i2 y hy
      rw [this, s4, s1]

/-- C19 as stated fails: a fresh mapper that has served the count
`2^64 - 10002` (no overflow of `FileIdSequence`, which is 20000; the counter
wrapped to 20002) answers two single-id calls with the start keys `2^64 - 1`
and then `0`, both granting 1. -/
theorem C19_counterexample :
    (((NewMapper [] [] 0 none).NextFileId (bytesOf "18446744073709541614")).1.FileIdSequence =
        20000) ∧
      (∀ r ∈ (((NewMapper [] [] 0 none).NextFileId (bytesOf "18446744073709541614")).1.nextFileIds
          [bytesOf "1", []]).2, r.2 = 1) ∧
      ¬ List.Chain' (fun a b => b = a + 1)
        ((((NewMapper [] [] 0 none).NextFileId
          (bytesOf "18446744073709541614")).1.nextFileIds [bytesOf "1", []]).2.map Prod.fst) := by
  have e : (((NewMapper [] [] 0 none).NextFileId (bytesOf "18446744073709541614")).1.nextFileIds
      [bytesOf "1", []]).2 = [(18446744073709551615, 1), (0, 1)] := by
    decide
  rw [e]
  refine ⟨by decide, by decide, ?_⟩
  simp [List.Chain']

/-- C19 (single-id requests are gap-free), amended: from every mapper state
with `fileIdCounter ≤ FileIdSequence < 2^64`, over every sequence of
`NextFileId` calls whose count string is `1` or empty and during which
`FileIdSequence` does not overflow 64 bits, every call grants 1 and returns a
start key exactly one greater than that of the previous call. -/
theorem C19_single_ids_gap_free (m : Mapper) (cs : List (List Nat))
    (hc : m.fileIdCounter ≤ m.FileIdSequence) (hS : m.FileIdSequence < 2 ^ 64)
    (hcs : ∀ c ∈ cs, c = bytesOf "1" ∨ c = []) (hno : m.noOverflowRun cs = true) :
    (∀ r ∈ (m.nextFileIds cs).2, r.2 = 1) ∧
      List.Chain' (fun a b => b = a + 1) ((m.nextFileIds cs).2.map Prod.fst) :=
  ⟨(single_run cs m hc hS hcs hno).1, (single_run cs m hc hS hcs hno).2.2⟩

/-- C19 (amended) across a reservation: a fresh mapper that has served the
count 9999 answers three single-id calls, the second of which reserves a new
interval. -/
theorem C19_single_ids_gap_free_witness :
    (∀ r ∈ (((NewMapper [] [] 0 none).NextFileId (bytesOf "9999")).1.nextFileIds
        [bytesOf "1", [], bytesOf "1"]).2, r.2 = 1) ∧
      List.Chain' (fun a b => b = a + 1)
        ((((NewMapper [] [] 0 none).NextFileId (bytesOf "9999")).1.nextFileIds
          [bytesOf "1", [], bytesOf "1"]).2.map Prod.fst) :=
  C19_single_ids_gap_free ((NewMapper [] [] 0 none).NextFileId (bytesOf "9999")).1
    [bytesOf "1", [], bytesOf "1"] (by decide) (by decide) (by decide) (by decide)

/-! ## Theorems: picking a volume for a write -/

/-- C12 (no writable volumes), evaluated on the code: on a mapper on which no
machine has been registered `PickForWrite` panics for every count string and
every random draw (`rand.Intn(0)` in the error return); with at least one
machine and empty `Writers` it returns the `No more writable volumes!` error
with an empty file id and a granted count of 0. -/
theorem C12_no_writable_volumes :
    (∀ (dir file : List Nat) (lim : Nat) (seq : Option Nat) (c : List Nat) (raw1 raw2 : Nat),
        (NewMapper dir file lim seq).PickForWrite c raw1 raw2 = PickResult.panic) ∧
      (∀ (m : Mapper) (c : List Nat) (raw1 raw2 : Nat), m.Writers = [] → m.Machines ≠ [] →
        ∃ server, m.PickForWrite c raw1 raw2 =
          PickResult.ret m [] 0 server (some PickError.noMoreWritableVolumes)) := by
  constructor
  · intro dir file lim seq c raw1 raw2
    have hw : (NewMapper dir file lim seq).Writers = [] := by cases seq <;> rfl
    have hm : (NewMapper dir file lim seq).Machines = [] := by cases seq <;> rfl
    simp [Mapper.PickForWrite, Mapper.randomServer, Intn, hw, hm]
  · intro m c raw1 raw2 hw hm
    have hlen : 0 < m.Machines.length := List.length_pos.mpr hm
    have hlt : raw1 % m.Machines.length < m.Machines.length := Nat.mod_lt _ hlen
    obtain ⟨e, he⟩ : ∃ e, m.Machines[raw1 % m.Machines.length]? = some e :=
      ⟨_, List.getElem?_eq_getElem hlt⟩
    refine ⟨e.Server, ?_⟩
    have hne : m.Machines.length ≠ 0 := by omega
    simp [Mapper.PickForWrite, Mapper.randomServer, Intn, hw, hne, he]

/-- `NextFileId` touches neither the machine list nor the index nor the
writers. -/
theorem nextFileId_frame (m : Mapper) (c : List Nat) :
    (m.NextFileId c).1.Machines = m.Machines ∧
      (m.NextFileId c).1.vid2machineId = m.vid2machineId ∧
      (m.NextFileId c).1.Writers = m.Writers := by
  rw [nextFileId_countOf]
  cases countOf c with
  | none => exact ⟨rfl, rfl, rfl⟩
  | some k =>
    by_cases h : m.fileIdCounter < k
    · simp only [Mapper.nextFileIdCount, h, if_true, Mapper.saveSequence, and_self]
    · simp only [Mapper.nextFileIdCount, h, if_false, and_self]

/-- After a run of `Add` calls on a mapper without machines, every slot is
the first one holding its url, and every record held was passed to some
`Add`. -/
theorem slots_inv (m0 : Mapper) (hM : m0.Machines = []) (ms : List Machine) :
    (∀ j e, (m0.addAll ms).Machines[j]? = some e →
        firstIndex (m0.addAll ms).Machines e.Server.Url = some j) ∧
      ∀ e ∈ (m0.addAll ms).Machines, e ∈ ms := by
  induction ms using List.reverseRecOn with
  | nil =>
    simp only [Mapper.addAll, List.foldl_nil, hM]
    refine ⟨?_, ?_⟩
    · intro j e h; simp at h
    · intro e h; exact absurd h (List.not_mem_nil _)
  | append_singleton ms y ih =>
    obtain ⟨ih1, ih2⟩ := ih
    rw [addAll_concat, add_machines]
    cases hf : firstIndex (m0.addAll ms).Machines y.Server.Url with
    | none =>
      refine ⟨?_, ?_⟩
      · intro j e h
        by_cases hj : j < (m0.addAll ms).Machines.length
        · rw [List.getElem?_append_left hj] at h
          exact firstIndex_append_some _ _ _ _ (ih1 j e h)
        · have hj2 : (m0.addAll ms).Machines.length ≤ j := by omega
          rw [List.getElem?_append_right hj2] at h
          have hj3 : j - (m0.addAll ms).Machines.length = 0 := by
            by_contra hne
            have : ([y] : List Machine)[j - (m0.addAll ms).Machines.length]? = none := by
              apply List.getElem?_eq_none
              simp only [List.length_cons, List.length_nil]
              omega
            rw [this] at h
            exact Option.noConfusion h
          rw [hj3] at h
          simp only [List.getElem?_cons_zero, Option.some.injEq] at h
          subst h
          have hj4 : j = (m0.addAll ms).Machines.length := by omega
          rw [hj4]
          exact firstIndex_append_none _ _ hf
      · intro e he
        rcases List.mem_append.mp he with h | h
        · exact List.mem_append_left _ (ih2 e h)
        · exact List.mem_append_right _ h
    | some i =>
      obtain ⟨hi, _, _⟩ := firstIndex_eq_some _ _ i hf
      refine ⟨?_, ?_⟩
      · intro j e h
        show firstIndex ((m0.addAll ms).Machines.set i y) e.Server.Url = some j
        have h' : ((m0.addAll ms).Machines.set i y)[j]? = some e := h
        rw [firstIndex_set _ _ i hf]
        by_cases hij : i = j
        · subst hij
          rw [List.getElem?_set_self hi] at h'
          simp only [Option.some.injEq] at h'
          subst h'
          exact hf
        · rw [List.getElem?_set_ne hij] at h'
          exact ih1 j e h'
      · intro e he
        have he' : e ∈ (m0.addAll ms).Machines.set i y := he
        rcases List.mem_or_eq_of_mem_set he' with h | h
        · exact List.mem_append_left _ (ih2 e h)
        · subst h; simp

/-- In a state reached by `Add` calls from a new mapper, an id in `Writers` is
advertised by a machine of the run, and its index entry is the slot, plus one,
of the last machine of the run that advertised it. -/
theorem writer_slot (dir file : List Nat) (lim : Nat) (seq : Option Nat) (ms : List Machine)
    (vid : Nat) (h : vid ∈ ((NewMapper dir file lim seq).addAll ms).Writers) :
    ∃ e, e ∈ ((NewMapper dir file lim seq).addAll ms).Machines ∧ e ∈ ms ∧
      (∃ v ∈ e.Volumes, v.Id = vid) ∧
      ∃ pre x post i, ms = pre ++ x :: post ∧ (∃ v ∈ x.Volumes, v.Id = vid) ∧
        (∀ y ∈ post, ¬ ∃ v ∈ y.Volumes, v.Id = vid) ∧
        firstIndex ((NewMapper dir file lim seq).addAll ms).Machines x.Server.Url = some i ∧
        mapGet ((NewMapper dir file lim seq).addAll ms).vid2machineId vid = (i : Int) + 1 := by
  have hW : (NewMapper dir file lim seq).Writers =
      rebuildWriters (NewMapper dir file lim seq).Machines
        (NewMapper dir file lim seq).volumeSizeLimit := by
    cases seq <;> rfl
  have hM : (NewMapper dir file lim seq).Machines = [] := by cases seq <;> rfl
  have hV : (NewMapper dir file lim seq).vid2machineId = [] := by cases seq <;> rfl
  rw [addAll_writers ms _ hW] at h
  obtain ⟨e, he, v, hv, hid, _⟩ := (mem_rebuildWriters _ _ vid).mp h
  obtain ⟨_, inv2⟩ := slots_inv _ hM ms
  have hems := inv2 e he
  obtain ⟨pre, x, post, hdec, hx, hpost⟩ :=
    last_advertiser (fun y => ∃ v ∈ y.Volumes, v.Id = vid) ms ⟨e, hems, v, hv, hid⟩
  obtain ⟨i, hi1, hi2⟩ := (lookup_inv _ hV vid ms).2 pre x post hdec hx hpost
  exact ⟨e, he, hems, ⟨v, hv, hid⟩, pre, x, post, i, hdec, hx, hpost, hi1, hi2⟩

/-- C18 (no orphan writer): in every state reached from a new mapper by `Add`
calls, every id in `Writers` has a `vid2machineId` entry between 1 and
`len(Machines)`; and when `Writers` is non-empty, `PickForWrite` neither
panics (no index out of range) nor returns the `is on no machine` error, for
every count string and every random draw. -/
theorem C18_no_orphan_writer (dir file : List Nat) (lim : Nat) (seq : Option Nat)
    (ms : List Machine) :
    (∀ vid ∈ ((NewMapper dir file lim seq).addAll ms).Writers,
        1 ≤ mapGet ((NewMapper dir file lim seq).addAll ms).vid2machineId vid ∧
          mapGet ((NewMapper dir file lim seq).addAll ms).vid2machineId vid ≤
            (((NewMapper dir file lim seq).addAll ms).Machines.length : Int)) ∧
      (((NewMapper dir file lim seq).addAll ms).Writers ≠ [] →
        ∀ (c : List Nat) (raw1 raw2 : Nat),
          ((NewMapper dir file lim seq).addAll ms).PickForWrite c raw1 raw2 ≠ PickResult.panic ∧
          ∀ m' fid count server vid,
            ((NewMapper dir file lim seq).addAll ms).PickForWrite c raw1 raw2 ≠
              PickResult.ret m' fid count server (some (PickError.onNoMachine vid))) := by
  have hslot : ∀ vid ∈ ((NewMapper dir file lim seq).addAll ms).Writers,
      ∃ i, i < ((NewMapper dir file lim seq).addAll ms).Machines.length ∧
        mapGet ((NewMapper dir file lim seq).addAll ms).vid2machineId vid = (i : Int) + 1 := by
    intro vid hvid
    obtain ⟨_, _, _, _, _, x, _, i, _, _, _, hi1, hi2⟩ :=
      writer_slot dir file lim seq ms vid hvid
    exact ⟨i, (firstIndex_eq_some _ _ i hi1).1, hi2⟩
  refine ⟨?_, ?_⟩
  · intro vid hvid
    obtain ⟨i, hi, hmap⟩ := hslot vid hvid
    rw [hmap]
    omega
  · intro hne c raw1 raw2
    generalize hm : (NewMapper dir file lim seq).addAll ms = m at hslot hne ⊢
    have hlen : 0 < m.Writers.length := List.length_pos.mpr hne
    have hwi : raw1 % m.Writers.length < m.Writers.length := Nat.mod_lt _ hlen
    have hget : m.Writers[raw1 % m.Writers.length]? =
        some (m.Writers[raw1 % m.Writers.length]) := List.getElem?_eq_getElem hwi
    have hmem : m.Writers[raw1 % m.Writers.length] ∈ m.Writers := List.getElem_mem hwi
    obtain ⟨i, hi, hmap⟩ := hslot _ hmem
    obtain ⟨mach, hmach⟩ : ∃ mach, m.Machines[i]? = some mach :=
      ⟨_, List.getElem?_eq_getElem hi⟩
    have h1 : ¬ m.Writers.length ≤ 0 := by omega
    have h2 : m.Writers.length ≠ 0 := by omega
    have h3 : (i : Int) + 1 > 0 := by omega
    have h4 : ((i : Int) + 1 - 1).toNat = i := by omega
    obtain ⟨f1, _, _⟩ := nextFileId_frame m c
    have hrs : ∃ srv, (m.NextFileId c).1.randomServer raw2 = some srv := by
      have hl : 0 < m.Machines.length := by omega
      have hl2 : raw2 % m.Machines.length < m.Machines.length := Nat.mod_lt _ hl
      have hl3 : m.Machines.length ≠ 0 := by omega
      refine ⟨(m.Machines[raw2 % m.Machines.length]).Server, ?_⟩
      simp only [Mapper.randomServer, f1, Intn, hl3, if_false,
        List.getElem?_eq_getElem hl2]
    obtain ⟨srv, hsrv⟩ := hrs
    have hpick : m.PickForWrite c raw1 raw2 =
        if (m.NextFileId c).2.2 = 0 then
          PickResult.ret (m.NextFileId c).1 [] 0 srv (some (PickError.strangeCount c))
        else
          PickResult.ret (m.NextFileId c).1
            (FileIdString (m.Writers[raw1 % m.Writers.length]) (m.NextFileId c).2.1
              (raw2 % 2 ^ 32))
            (m.NextFileId c).2.2 mach.Server none := by
      simp only [Mapper.PickForWrite, h1, if_false, Intn, h2, hget, hmap, h3, if_true, h4,
        hmach, hsrv]
    rw [hpick]
    by_cases hz : (m.NextFileId c).2.2 = 0
    · rw [if_pos hz]
      refine ⟨fun h => PickResult.noConfusion h, ?_⟩
      intro m' fid count server vid h
      injection h with _ _ _ _ h5
      injection h5 with h6
      exact PickError.noConfusion h6
    · rw [if_neg hz]
      refine ⟨fun h => PickResult.noConfusion h, ?_⟩
      intro m' fid count server vid h
      injection h with _ _ _ _ h5
      exact Option.noConfusion h5

/-- C18 on the run `a` (volume 1), `b` (volume 2), for the count `1` and the
draws 3 and 4. -/
theorem C18_no_orphan_writer_witness :
    ((NewMapper [] [] 100 none).addAll
        [⟨⟨bytesOf "a", []⟩, [⟨1, 0⟩]⟩, ⟨⟨bytesOf "b", []⟩, [⟨2, 0⟩]⟩]).PickForWrite
        (bytesOf "1") 3 4 ≠ PickResult.panic :=
  ((C18_no_orphan_writer [] [] 100 none
      [⟨⟨bytesOf "a", []⟩, [⟨1, 0⟩]⟩, ⟨⟨bytesOf "b", []⟩, [⟨2, 0⟩]⟩]).2 (by decide)
    (bytesOf "1") 3 4).1

/-- C20 as stated fails: after `a` reports volume 1, `b` reports volume 1 and
`b` reports again without it, volume 1 is in `Writers` (through `a`), its
index entry is 2, and slot 1 holds the record of `b`, which lists no volume;
`Get(1)` returns that record. -/
theorem C20_counterexample :
    (1 ∈ ((NewMapper [] [] 100 none).addAll
        [⟨⟨bytesOf "a", []⟩, [⟨1, 0⟩]⟩, ⟨⟨bytesOf "b", []⟩, [⟨1, 0⟩]⟩,
         ⟨⟨bytesOf "b", []⟩, []⟩]).Writers) ∧
      mapGet ((NewMapper [] [] 100 none).addAll
        [⟨⟨bytesOf "a", []⟩, [⟨1, 0⟩]⟩, ⟨⟨bytesOf "b", []⟩, [⟨1, 0⟩]⟩,
         ⟨⟨bytesOf "b", []⟩, []⟩]).vid2machineId 1 = 2 ∧
      ((NewMapper [] [] 100 none).addAll
        [⟨⟨bytesOf "a", []⟩, [⟨1, 0⟩]⟩, ⟨⟨bytesOf "b", []⟩, [⟨1, 0⟩]⟩,
         ⟨⟨bytesOf "b", []⟩, []⟩]).Machines[1]? = some ⟨⟨bytesOf "b", []⟩, []⟩ ∧
      ((NewMapper [] [] 100 none).addAll
        [⟨⟨bytesOf "a", []⟩, [⟨1, 0⟩]⟩, ⟨⟨bytesOf "b", []⟩, [⟨1, 0⟩]⟩,
         ⟨⟨bytesOf "b", []⟩, []⟩]).Get 1 = GetResult.ok ⟨⟨bytesOf "b", []⟩, []⟩ ∧
      ¬ ∃ v ∈ (⟨⟨bytesOf "b", []⟩, []⟩ : Machine).Volumes, v.Id = 1 := by
  decide

/-- C20 (writes are routed to an owner), amended: in every state reached from
a new mapper by `Add` calls in which no volume id was advertised under two
different urls, for every id in `Writers` the machine in slot
`vid2machineId[vid] - 1` lists that id among its own volumes, `Get(vid)`
returns that machine, and a `PickForWrite` that succeeds returns the `Server`
of the machine holding the volume it picked. -/
theorem C20_writes_routed_to_owner (dir file : List Nat) (lim : Nat) (seq : Option Nat)
    (ms : List Machine)
    (hex : ∀ x ∈ ms, ∀ y ∈ ms, ∀ v ∈ x.Volumes, ∀ w ∈ y.Volumes,
      v.Id = w.Id → x.Server.Url = y.Server.Url) :
    (∀ vid ∈ ((NewMapper dir file lim seq).addAll ms).Writers,
        ∃ r, ((NewMapper dir file lim seq).addAll ms).Machines[
              (mapGet ((NewMapper dir file lim seq).addAll ms).vid2machineId vid - 1).toNat]? =
            some r ∧
          ((NewMapper dir file lim seq).addAll ms).Get vid = GetResult.ok r ∧
          ∃ v ∈ r.Volumes, v.Id = vid) ∧
      ∀ (c : List Nat) (raw1 raw2 : Nat) m' fid count server,
        ((NewMapper dir file lim seq).addAll ms).PickForWrite c raw1 raw2 =
            PickResult.ret m' fid count server none →
          ∃ vid r, ((NewMapper dir file lim seq).addAll ms).Writers[
                raw1 % ((NewMapper dir file lim seq).addAll ms).Writers.length]? = some vid ∧
            ((NewMapper dir file lim seq).addAll ms).Get vid = GetResult.ok r ∧
            server = r.Server ∧ ∃ v ∈ r.Volumes, v.Id = vid := by
  have hM : (NewMapper dir file lim seq).Machines = [] := by cases seq <;> rfl
  have hown : ∀ vid ∈ ((NewMapper dir file lim seq).addAll ms).Writers,
      ∃ (i : Nat) (r : Machine),
        mapGet ((NewMapper dir file lim seq).addAll ms).vid2machineId vid = (i : Int) + 1 ∧
        ((NewMapper dir file lim seq).addAll ms).Machines[i]? = some r ∧
        ((NewMapper dir file lim seq).addAll ms).Get vid = GetResult.ok r ∧
        ∃ v ∈ r.Volumes, v.Id = vid := by
    intro vid hvid
    obtain ⟨e, he, hems, ⟨v, hv, hid⟩, pre, x, post, i, hdec, ⟨w, hw, hwid⟩, _, hi1, hi2⟩ :=
      writer_slot dir file lim seq ms vid hvid
    have hxms : x ∈ ms := by rw [hdec]; simp
    have hurl : e.Server.Url = x.Server.Url :=
      hex e hems x hxms v hv w hw (by rw [hid, hwid])
    obtain ⟨inv1, _⟩ := slots_inv _ hM ms
    obtain ⟨j, hj⟩ := List.getElem?_of_mem he
    have hjf := inv1 j e hj
    rw [hurl, hi1] at hjf
    simp only [Option.some.injEq] at hjf
    subst hjf
    obtain ⟨r, hr1, _, hr3⟩ := get_of_slot _ vid i _ hi1 hi2
    rw [hj] at hr1
    simp only [Option.some.injEq] at hr1
    subst hr1
    exact ⟨i, e, hi2, hj, hr3, v, hv, hid⟩
  refine ⟨?_, ?_⟩
  · intro vid hvid
    obtain ⟨i, r, h1, h2, h3, h4⟩ := hown vid hvid
    have h5 : ((i : Int) + 1 - 1).toNat = i := by omega
    exact ⟨r, by rw [h1, h5]; exact h2, h3, h4⟩
  · intro c raw1 raw2 m' fid count server hpick
    generalize hm : (NewMapper dir file lim seq).addAll ms = m at hown hpick ⊢
    by_cases hne : m.Writers = []
    · exfalso
      have hlen : m.Writers.length ≤ 0 := by rw [hne]; simp
      simp only [Mapper.PickForWrite, hlen, if_true] at hpick
      cases hrs : m.randomServer raw1 with
      | none => rw [hrs] at hpick; exact PickResult.noConfusion hpick
      | some s =>
        rw [hrs] at hpick
        injection hpick with _ _ _ _ h5
        exact Option.noConfusion h5
    · have hlen : 0 < m.Writers.length := List.length_pos.mpr hne
      have hwi : raw1 % m.Writers.length < m.Writers.length := Nat.mod_lt _ hlen
      have hget : m.Writers[raw1 % m.Writers.length]? =
          some (m.Writers[raw1 % m.Writers.length]) := List.getElem?_eq_getElem hwi
      have hmem : m.Writers[raw1 % m.Writers.length] ∈ m.Writers := List.getElem_mem hwi
      obtain ⟨i, r, h1, h2, h3, h4⟩ := hown _ hmem
      refine ⟨_, r, hget, h3, ?_, h4⟩
      have g1 : ¬ m.Writers.length ≤ 0 := by omega
      have g2 : m.Writers.length ≠ 0 := by omega
      have g3 : (i : Int) + 1 > 0 := by omega
      have g4 : ((i : Int) + 1 - 1).toNat = i := by omega
      simp only [Mapper.PickForWrite, g1, if_false, Intn, g2, hget, h1, g3, if_true, g4,
        h2] at hpick
      by_cases hz : (m.NextFileId c).2.2 = 0
      · rw [if_pos hz] at hpick
        cases hrs : (m.NextFileId c).1.randomServer raw2 with
        | none => rw [hrs] at hpick; exact PickResult.noConfusion hpick
        | some s =>
          rw [hrs] at hpick
          injection hpick with _ _ _ _ h5
          exact Option.noConfusion h5
      · rw [if_neg hz] at hpick
        injection hpick with _ _ _ h6 _
        exact h6.symm

/-- C20 (amended) on the run `a` (volume 1), `b` (volume 2), `a` again
(volumes 1 and 3), for volume 3. -/
theorem C20_writes_routed_to_owner_witness :
    ∃ r, ((NewMapper [] [] 100 none).addAll
          [⟨⟨bytesOf "a", []⟩, [⟨1, 0⟩]⟩, ⟨⟨bytesOf "b", []⟩, [⟨2, 0⟩]⟩,
           ⟨⟨bytesOf "a", []⟩, [⟨1, 0⟩, ⟨3, 0⟩]⟩]).Machines[
          (mapGet ((NewMapper [] [] 100 none).addAll
            [⟨⟨bytesOf "a", []⟩, [⟨1, 0⟩]⟩, ⟨⟨bytesOf "b", []⟩, [⟨2, 0⟩]⟩,
             ⟨⟨bytesOf "a", []⟩, [⟨1, 0⟩, ⟨3, 0⟩]⟩]).vid2machineId 3 - 1).toNat]? =
        some r ∧
      ((NewMapper [] [] 100 none).addAll
          [⟨⟨bytesOf "a", []⟩, [⟨1, 0⟩]⟩, ⟨⟨bytesOf "b", []⟩, [⟨2, 0⟩]⟩,
           ⟨⟨bytesOf "a", []⟩, [⟨1, 0⟩, ⟨3, 0⟩]⟩]).Get 3 = GetResult.ok r ∧
      ∃ v ∈ r.Volumes, v.Id = 3 :=
  (C20_writes_routed_to_owner [] [] 100 none
    [⟨⟨bytesOf "a", []⟩, [⟨1, 0⟩]⟩, ⟨⟨bytesOf "b", []⟩, [⟨2, 0⟩]⟩,
     ⟨⟨bytesOf "a", []⟩, [⟨1, 0⟩, ⟨3, 0⟩]⟩] (by decide)).1 3 (by decide)

/-! ## Theorems: malformed file ids, padding -/

/-- `ParsePath` on a file id longer than 8 bytes, in terms of its hash part
and its delta part. -/
theorem parsePath_long (n : Needle) (fid : List Nat) (h : 8 < fid.length) :
    n.ParsePath fid =
      if deltaPart fid ≠ [] then
        match ParseUint (deltaPart fid) with
        | some d =>
          { n with Key := ((ParseKeyHash (hashPart fid)).1 + d) % 2 ^ 64,
                   Cookie := (ParseKeyHash (hashPart fid)).2 }
        | none =>
          { n with Key := (ParseKeyHash (hashPart fid)).1,
                   Cookie := (ParseKeyHash (hashPart fid)).2 }
      else
        { n with Key := (ParseKeyHash (hashPart fid)).1,
                 Cookie := (ParseKeyHash (hashPart fid)).2 } := by
  have hlen : ¬ fid.length ≤ 8 := by omega
  unfold Needle.ParsePath hashPart deltaPart
  rw [if_neg hlen]
  by_cases hi : LastIndex fid 95 > 0
  · simp only [hi, if_true]
  · simp only [hi, if_false]

/-- A hash part that does not decode to more than 4 bytes parses as
`(0, 0)`. -/
theorem parseKeyHash_bad (fid : List Nat) (h : hashDecodes fid = false) :
    ParseKeyHash (hashPart fid) = (0, 0) := by
  unfold hashDecodes at h
  unfold ParseKeyHash
  cases hd : hexDecode (hashPart fid) with
  | none => rfl
  | some bytes =>
    rw [hd] at h
    simp only [decide_eq_false_iff_not, not_lt] at h
    simp only [h, if_true]

/-- C13 as stated fails: the 11-byte file id `zzzzzzzzz_7` has a hash part
that is no hex text, yet `ParsePath` turns the key 0 of a new needle into 7;
on a needle with key 5 and cookie 9 the 9-byte `zzzzzzzzz` sets both to 0; and
the five-character string `ééééé` is 10 bytes long and sets both to 0 as
well. -/
theorem C13_counterexample :
    (hashDecodes (bytesOf "zzzzzzzzz_7") = false ∧
        (Needle.zero.ParsePath (bytesOf "zzzzzzzzz_7")).Key = 7 ∧ Needle.zero.Key = 0) ∧
      (hashDecodes (bytesOf "zzzzzzzzz") = false ∧
        ((⟨9, 5, 0, [], 0, []⟩ : Needle).ParsePath (bytesOf "zzzzzzzzz")).Key = 0 ∧
        ((⟨9, 5, 0, [], 0, []⟩ : Needle).ParsePath (bytesOf "zzzzzzzzz")).Cookie = 0) ∧
      ("ééééé".length = 5 ∧ (bytesOf "ééééé").length = 10 ∧
        ((⟨9, 5, 0, [], 0, []⟩ : Needle).ParsePath (bytesOf "ééééé")).Key = 0 ∧
        ((⟨9, 5, 0, [], 0, []⟩ : Needle).ParsePath (bytesOf "ééééé")).Cookie = 0) := by
  decide

/-- C13 (malformed file ids), amended: for every file id of at most 8 bytes
`ParsePath` leaves the needle, so its Key and Cookie, as it was; for every
longer file id whose hash part does not hex-decode to more than 4 bytes,
`ParsePath` sets Cookie to 0, and Key to 0 when the file id carries no delta
part that parses as a decimal `uint64`. -/
theorem C13_malformed_fid (n : Needle) (fid : List Nat) :
    (fid.length ≤ 8 → n.ParsePath fid = n) ∧
      (8 < fid.length → hashDecodes fid = false →
        (n.ParsePath fid).Cookie = 0 ∧
          (ParseUint (deltaPart fid) = none → (n.ParsePath fid).Key = 0)) := by
  refine ⟨?_, ?_⟩
  · intro h
    unfold Needle.ParsePath
    rw [if_pos h]
  · intro h hbad
    rw [parsePath_long n fid h, parseKeyHash_bad fid hbad]
    by_cases hd : deltaPart fid ≠ []
    · rw [if_pos hd]
      cases hp : ParseUint (deltaPart fid) with
      | none => exact ⟨rfl, fun _ => rfl⟩
      | some d => exact ⟨rfl, fun h0 => Option.noConfusion h0⟩
    · rw [if_neg hd]
      exact ⟨rfl, fun _ => rfl⟩

/-- C13 (amended) on the file ids `ab` and `zzzzzzzzz` and a needle with key 5
and cookie 9. -/
theorem C13_malformed_fid_witness :
    (⟨9, 5, 0, [], 0, []⟩ : Needle).ParsePath (bytesOf "ab") = ⟨9, 5, 0, [], 0, []⟩ ∧
      ((⟨9, 5, 0, [], 0, []⟩ : Needle).ParsePath (bytesOf "zzzzzzzzz")).Cookie = 0 ∧
      ((⟨9, 5, 0, [], 0, []⟩ : Needle).ParsePath (bytesOf "zzzzzzzzz")).Key = 0 :=
  ⟨(C13_malformed_fid ⟨9, 5, 0, [], 0, []⟩ (bytesOf "ab")).1 (by decide),
   ((C13_malformed_fid ⟨9, 5, 0, [], 0, []⟩ (bytesOf "zzzzzzzzz")).2 (by decide) (by decide)).1,
   ((C13_malformed_fid ⟨9, 5, 0, [], 0, []⟩ (bytesOf "zzzzzzzzz")).2 (by decide) (by decide)).2
     (by decide)⟩

/-- C14 (zero padding), evaluated on the code: the padding `Append` writes
after the checksum is the first `rest` bytes of the big-endian key field left
in the reused header buffer; for the key `2^64 - 1` and no data the frame ends
with four bytes `0xff`. -/
theorem C14_padding_bytes :
    (∀ (n : Needle) (w : List Nat),
        (n.Append w).written.drop (w.length + 16 + n.Data.length + 4) =
          (Uint64toBytes n.Key).take (restOf (n.Data.length % 2 ^ 32))) ∧
      (Needle.Append ⟨0, 0xFFFFFFFFFFFFFFFF, 0, [], 0, []⟩ []).written.drop 20 =
        [255, 255, 255, 255] ∧
      8 - ((([] : List Nat).length + 20) % 8) = 4 := by
  refine ⟨?_, by decide, by decide⟩
  intro n w
  have hl : (w ++ (Uint32toBytes n.Cookie ++ Uint64toBytes n.Key ++
      Uint32toBytes (n.Data.length % 2 ^ 32)) ++ n.Data ++
      Uint32toBytes (uint32OfInt32 n.Checksum)).length = w.length + 16 + n.Data.length + 4 := by
    simp only [List.length_append, Uint32toBytes, Uint64toBytes, List.length_cons,
      List.length_nil]
  have e : (n.Append w).written =
      (w ++ (Uint32toBytes n.Cookie ++ Uint64toBytes n.Key ++
        Uint32toBytes (n.Data.length % 2 ^ 32)) ++ n.Data ++
        Uint32toBytes (uint32OfInt32 n.Checksum)) ++
        (Uint64toBytes n.Key).take (restOf (n.Data.length % 2 ^ 32)) := by
    rw [append_written]
    simp only [List.append_assoc]
  rw [e, ← hl]
  exact List.drop_left _ _

/-! ## Theorems: scanning a volume file -/

/-- Reading sixteen bytes at the cursor when at least sixteen are there. -/
theorem file_read_header (pre h tail : List Nat) (hl : h.length = 16) :
    File.Read ⟨pre ++ h ++ tail, pre.length⟩ 16 =
      (h, 16, false, ⟨pre ++ h ++ tail, pre.length + 16⟩) := by
  have hd : (pre ++ h ++ tail).drop pre.length = h ++ tail := by
    rw [List.append_assoc]
    exact List.drop_left _ _
  have ht : (h ++ tail).take 16 = h := by
    rw [← hl]
    exact List.take_left _ _
  unfold File.Read
  simp only [hd, ht, hl, Nat.sub_self, List.replicate_zero, List.append_nil]
  rfl

/-- `ReadNeedle` at the first byte of a sixteen-byte header. -/
theorem readNeedle_header (pre hc hk hs tail : List Nat) (h1 : hc.length = 4)
    (h2 : hk.length = 8) (h3 : hs.length = 4) :
    ReadNeedle ⟨pre ++ (hc ++ hk ++ hs) ++ tail, pre.length⟩ =
      (some { Needle.zero with Cookie := BytesToUint32 hc, Key := BytesToUint64 hk,
                               Size := BytesToUint32 hs },
        (16 + BytesToUint32 hs + 4 + restOf (BytesToUint32 hs)) % 2 ^ 32,
        ⟨pre ++ (hc ++ hk ++ hs) ++ tail,
          pre.length + 16 + (BytesToUint32 hs + 4 + restOf (BytesToUint32 hs)) % 2 ^ 32⟩) := by
  have hl : (hc ++ hk ++ hs).length = 16 := by
    simp only [List.length_append, h1, h2, h3]
  have s1 : ((hc ++ hk ++ hs).drop 0).take 4 = hc := by
    rw [List.drop_zero, List.append_assoc, ← h1]
    exact List.take_left _ _
  have s2 : ((hc ++ hk ++ hs).drop 4).take 8 = hk := by
    rw [List.append_assoc, ← h1, List.drop_left, ← h2]
    exact List.take_left _ _
  have s3 : ((hc ++ hk ++ hs).drop 12).take 4 = hs := by
    have : (hc ++ hk).length = 12 := by simp only [List.length_append, h1, h2]
    rw [← this, List.drop_left, ← h3]
    exact List.take_length hs
  have hcond : ¬ (16 ≤ 0 ∨ false = true) := by decide
  unfold ReadNeedle
  simp only [file_read_header pre (hc ++ hk ++ hs) tail hl, hcond, if_false, s1, s2, s3,
    File.SeekCur]

/-- `ReadNeedle` at the first byte of a frame `Append` wrote, for every data
length below `2^32`: the header fields, and the `uint32` frame length and
cursor move. -/
theorem readNeedle_append (cookie key size0 : Nat) (checksum : Int) (data pad0 pre post : List Nat)
    (hc : cookie < 2 ^ 32) (hk : key < 2 ^ 64) (hd : data.length < 2 ^ 32) :
    ReadNeedle ⟨(Needle.Append ⟨cookie, key, size0, data, checksum, pad0⟩ pre).written ++ post,
        pre.length⟩ =
      (some { Needle.zero with Cookie := cookie, Key := key, Size := data.length },
        (16 + data.length + 4 + restOf data.length) % 2 ^ 32,
        ⟨(Needle.Append ⟨cookie, key, size0, data, checksum, pad0⟩ pre).written ++ post,
          pre.length + 16 + (data.length + 4 + restOf data.length) % 2 ^ 32⟩) ∧
      (Needle.Append ⟨cookie, key, size0, data, checksum, pad0⟩ pre).written.length =
        pre.length + (16 + data.length + 4 + restOf data.length) := by
  have hsz : data.length % 2 ^ 32 = data.length := Nat.mod_eq_of_lt hd
  have hr := restOf_le data.length
  have hw : (Needle.Append ⟨cookie, key, size0, data, checksum, pad0⟩ pre).written ++ post =
      pre ++ (Uint32toBytes cookie ++ Uint64toBytes key ++ Uint32toBytes data.length) ++
        (data ++ (Uint32toBytes (uint32OfInt32 checksum) ++
          (Uint64toBytes key).take (restOf data.length)) ++ post) := by
    rw [append_written]
    simp only [hsz, List.append_assoc]
  have hlen : (Needle.Append ⟨cookie, key, size0, data, checksum, pad0⟩ pre).written.length =
      pre.length + (16 + data.length + 4 + restOf data.length) := by
    rw [append_written]
    simp only [hsz, List.length_append, List.length_take, Uint32toBytes, Uint64toBytes,
      List.length_cons, List.length_nil]
    omega
  refine ⟨?_, hlen⟩
  rw [hw]
  have := readNeedle_header pre (Uint32toBytes cookie) (Uint64toBytes key)
    (Uint32toBytes data.length)
    (data ++ (Uint32toBytes (uint32OfInt32 checksum) ++
      (Uint64toBytes key).take (restOf data.length)) ++ post)
    (by simp only [Uint32toBytes, List.length_cons, List.length_nil])
    (by simp only [Uint64toBytes, List.length_cons, List.length_nil])
    (by simp only [Uint32toBytes, List.length_cons, List.length_nil])
  rw [bytesToUint32_toBytes cookie hc, bytesToUint64_toBytes key hk,
    bytesToUint32_toBytes data.length hd] at this
  exact this

/-- A frame with `2^32 - 4` data bytes is `2^32 + 24` bytes long, while
`ReadNeedle` reports 24 and moves the cursor by 24. -/
theorem readNeedle_long_data (data : List Nat) (h : data.length = 2 ^ 32 - 4) :
    (ReadNeedle ⟨(Needle.Append ⟨1, 2, 0, data, 0, []⟩ []).written, 0⟩).2.1 = 24 ∧
      (ReadNeedle ⟨(Needle.Append ⟨1, 2, 0, data, 0, []⟩ []).written, 0⟩).2.2.pos = 24 ∧
      (Needle.Append ⟨1, 2, 0, data, 0, []⟩ []).written.length = 2 ^ 32 + 24 := by
  have hd : data.length < 2 ^ 32 := by omega
  obtain ⟨e, hlen⟩ := readNeedle_append 1 2 0 0 data [] [] [] (by omega) (by omega) hd
  rw [List.append_nil] at e
  have e' : ReadNeedle ⟨(Needle.Append ⟨1, 2, 0, data, 0, []⟩ []).written, 0⟩ = _ := e
  have hrest : restOf data.length = 8 := by
    unfold restOf; omega
  rw [e']
  refine ⟨?_, ?_, ?_⟩
  · show (16 + data.length + 4 + restOf data.length) % 2 ^ 32 = 24
    rw [hrest]; omega
  · show ([] : List Nat).length + 16 + (data.length + 4 + restOf data.length) % 2 ^ 32 = 24
    rw [hrest, List.length_nil]; omega
  · rw [hlen, hrest, List.length_nil]; omega

/-- C15 as stated fails: for the `2^32 - 4` zero bytes of data (a length below
`2^32`) `Append` writes `2^32 + 24` bytes, while `ReadNeedle` at the first byte
of that frame reports a frame length of 24 and leaves the cursor 24 bytes
further on. -/
theorem C15_counterexample :
    (List.replicate (2 ^ 32 - 4) 0).length < 2 ^ 32 ∧
      (ReadNeedle ⟨(Needle.Append ⟨1, 2, 0, List.replicate (2 ^ 32 - 4) 0, 0, []⟩ []).written,
        0⟩).2.1 = 24 ∧
      (ReadNeedle ⟨(Needle.Append ⟨1, 2, 0, List.replicate (2 ^ 32 - 4) 0, 0, []⟩ []).written,
        0⟩).2.2.pos = 24 ∧
      (Needle.Append ⟨1, 2, 0, List.replicate (2 ^ 32 - 4) 0, 0, []⟩ []).written.length =
        2 ^ 32 + 24 :=
  ⟨by rw [List.length_replicate]; omega,
   readNeedle_long_data (List.replicate (2 ^ 32 - 4) 0) (List.length_replicate _ _)⟩

/-- C15 (scan agrees with append), amended: for every cookie (`uint32`), key
(`uint64`) and data with `20 + len(data) + pad < 2^32`, where
`pad = 8 - ((len(data) + 20) mod 8)`, `ReadNeedle` positioned at the first byte
of the frame `Append` wrote returns a header with the same Cookie and Key and
`Size = len(data)`, reports the frame length `20 + len(data) + pad` (the number
of bytes `Append` wrote, a multiple of 8) and leaves the cursor exactly that
many bytes further on. -/
theorem C15_scan_agrees_with_append (cookie key size0 : Nat) (checksum : Int)
    (data pad0 pre post : List Nat) (hc : cookie < 2 ^ 32) (hk : key < 2 ^ 64)
    (hlen : 20 + data.length + (8 - (data.length + 20) % 8) < 2 ^ 32) :
    ReadNeedle ⟨(Needle.Append ⟨cookie, key, size0, data, checksum, pad0⟩ pre).written ++ post,
        pre.length⟩ =
      (some { Needle.zero with Cookie := cookie, Key := key, Size := data.length },
        20 + data.length + (8 - (data.length + 20) % 8),
        ⟨(Needle.Append ⟨cookie, key, size0, data, checksum, pad0⟩ pre).written ++ post,
          pre.length + (20 + data.length + (8 - (data.length + 20) % 8))⟩) ∧
      (Needle.Append ⟨cookie, key, size0, data, checksum, pad0⟩ pre).written.length =
        pre.length + (20 + data.length + (8 - (data.length + 20) % 8)) ∧
      (20 + data.length + (8 - (data.length + 20) % 8)) % 8 = 0 := by
  have hd : data.length < 2 ^ 32 := by omega
  obtain ⟨e, hl⟩ := readNeedle_append cookie key size0 checksum data pad0 pre post hc hk hd
  have hrest : restOf data.length = 8 - (data.length + 20) % 8 := by
    unfold restOf; omega
  have h1 : (16 + data.length + 4 + restOf data.length) % 2 ^ 32 =
      20 + data.length + (8 - (data.length + 20) % 8) := by
    rw [hrest]; omega
  have h2 : pre.length + 16 + (data.length + 4 + restOf data.length) % 2 ^ 32 =
      pre.length + (20 + data.length + (8 - (data.length + 20) % 8)) := by
    rw [hrest]; omega
  rw [h1, h2] at e
  refine ⟨e, ?_, by omega⟩
  rw [hl, hrest]; omega

/-- C15 (amended) on the needle with cookie `0x11111111`, key 42 and data
`hello`, appended after two earlier bytes. -/
theorem C15_scan_agrees_with_append_witness :
    ReadNeedle ⟨(Needle.Append ⟨0x11111111, 42, 0, bytesOf "hello", -5, []⟩ [7, 7]).written ++ [9],
        ([7, 7] : List Nat).length⟩ =
      (some { Needle.zero with Cookie := 0x11111111, Key := 42,
                               Size := (bytesOf "hello").length },
        20 + (bytesOf "hello").length + (8 - ((bytesOf "hello").length + 20) % 8),
        ⟨(Needle.Append ⟨0x11111111, 42, 0, bytesOf "hello", -5, []⟩ [7, 7]).written ++ [9],
          ([7, 7] : List Nat).length +
            (20 + (bytesOf "hello").length + (8 - ((bytesOf "hello").length + 20) % 8))⟩) :=
  (C15_scan_agrees_with_append 0x11111111 42 0 (-5) (bytesOf "hello") [] [7, 7] [9]
    (by decide) (by decide) (by decide)).1

/-- C16 (short header), evaluated on the code: with nothing left at the cursor
`ReadNeedle` returns no needle and 0; with 1 to 15 bytes left it returns a
needle built from the partly filled buffer; on a file of the five bytes
`1 2 3 4 5` it returns cookie `0x01020304`, key `0x0500000000000000`, size 0
and a frame length of 24. -/
theorem C16_short_header :
    (∀ r : File, r.content.length ≤ r.pos → (ReadNeedle r).1 = none ∧ (ReadNeedle r).2.1 = 0) ∧
      (∀ r : File, r.pos < r.content.length → (ReadNeedle r).1 ≠ none) ∧
      ReadNeedle ⟨[1, 2, 3, 4, 5], 0⟩ =
        (some { Needle.zero with Cookie := 0x01020304, Key := 0x0500000000000000, Size := 0 },
          24, ⟨[1, 2, 3, 4, 5], 13⟩) := by
  refine ⟨?_, ?_, by decide⟩
  · intro r h
    have hd : r.content.drop r.pos = [] := List.drop_eq_nil_of_le h
    simp only [ReadNeedle, File.Read, hd, List.take_nil, List.length_nil, Nat.le_refl, true_or,
      if_true, and_self]
  · intro r h
    have hpos : 0 < ((r.content.drop r.pos).take 16).length := by
      rw [List.length_take, List.length_drop]
      omega
    have h1 : ¬ ((r.content.drop r.pos).take 16).length ≤ 0 := by omega
    have h2 : ¬ (0 < 16 ∧ ((r.content.drop r.pos).take 16).length = 0) := by omega
    simp only [ReadNeedle, File.Read, h1, h2, decide_False, false_or, if_false]
    exact fun h => Option.noConfusion h

/-! ## Theorems: the read handler -/

/-- C17 (cookie gate on read): for every request, response writer and store,
when the needle's cookie after `store.Read` differs from the cookie
`ParsePath` extracted from the file id of the request, `GetHandler` leaves the
response as it was, so it writes no byte of the needle's data (and sets no
header); a path on which `parseURLPath` panics gets no response at all. -/
theorem C17_cookie_gate (deps : GetDeps) (w : Response) (r : Request) :
    (parseURLPath r.Path = none → GetHandler deps w r = none) ∧
      ∀ vid fid ext, parseURLPath r.Path = some (vid, fid, ext) →
        (deps.storeRead (ParseUintValue vid) (Needle.zero.ParsePath fid)).1.Cookie ≠
            (Needle.zero.ParsePath fid).Cookie →
          GetHandler deps w r = some w := by
  refine ⟨?_, ?_⟩
  · intro h
    unfold GetHandler
    rw [h]
  · intro vid fid ext h hne
    unfold GetHandler
    rw [h]
    simp only [hne, ne_eq, not_false_eq_true, if_true]

/-- C17 on the path `/3,abcdef0123456789abcdef01` and a store whose needle
carries cookie 0 and five data bytes. -/
theorem C17_cookie_gate_witness :
    GetHandler
        { storeRead := fun _ n => ({ n with Cookie := 0, Data := bytesOf "hello" }, 25, false),
          typeByExtension := fun _ => [], isCompressable := fun _ _ => false,
          unGzipData := fun d => d }
        ⟨[], []⟩ ⟨bytesOf "/3,abcdef0123456789abcdef01", []⟩ =
      some ⟨[], []⟩ :=
  (C17_cookie_gate
      { storeRead := fun _ n => ({ n with Cookie := 0, Data := bytesOf "hello" }, 25, false),
        typeByExtension := fun _ => [], isCompressable := fun _ _ => false,
        unGzipData := fun d => d }
      ⟨[], []⟩ ⟨bytesOf "/3,abcdef0123456789abcdef01", []⟩).2
    (bytesOf "3") (bytesOf "abcdef0123456789abcdef01") [] (by decide) (by decide)

end Weed
